import Mathlib

/-
  Shallow embedding of the Node-Connection graph engine
  (src/core/node.py, src/core/graph_model.py, src/core/analytics.py,
   src/visualization/color_schemes.py, src/utils/validators.py,
   src/ui/controller.py), together with proofs about the spec claims.

  Python floats are modelled as rationals, Python dicts as insertion-ordered
  association lists with unique keys, raised exceptions as Option/Except, and
  the numerical centrality / clustering library calls as oracle inputs (the
  surrounding code that consumes their results is embedded faithfully).
-/

namespace NodeConn

attribute [local semireducible] Rat.mul Rat.inv Rat.add Rat.sub Rat.ofScientific

set_option maxRecDepth 10000

/-- Python `str.strip()`: drop leading and trailing whitespace (written
structurally over the character list so that proofs can evaluate it). -/
def pyStrip (s : String) : String :=
  String.mk (((s.data.dropWhile Char.isWhitespace).reverse.dropWhile
    Char.isWhitespace).reverse)

/-- Python `str.lower()` (structural over the character list). -/
def pyLower (s : String) : String := String.mk (s.data.map Char.toLower)

/-- Python string fallback `s or d`: the empty string is falsy. -/
def pyOrStr (s d : String) : String := if s = "" then d else s

/-- Python dict fallback `m or d` for metadata dictionaries: `{}` is falsy. -/
def pyOrList (m d : List (String × String)) : List (String × String) :=
  if m.isEmpty then d else m

/-- Entity model: dataclass `Node` of src/core/node.py after
`__post_init__` normalization (id trimmed and non-empty, label defaulted). -/
structure Node where
  id : String
  label : String
  category : Option String
  valuation : Option ℚ
  role : Option String
  company_type : Option String
  logo_url : Option String
  metadata : List (String × String)
deriving DecidableEq

/-- Node construction (`Node.__post_init__`): raises (`none`) when the id is
blank after trimming; trims the id; defaults a falsy label to the trimmed id;
defaults missing metadata to the empty dict. -/
def mkNode (id : String) (label : Option String) (category : Option String)
    (valuation : Option ℚ) (role : Option String) (company_type : Option String)
    (logo_url : Option String) (metadata : Option (List (String × String))) :
    Option Node :=
  if pyStrip id = "" then none
  else
    some { id := pyStrip id
           label :=
             match label with
             | none => pyStrip id
             | some l => if l = "" then pyStrip id else l
           category := category
           valuation := valuation
           role := role
           company_type := company_type
           logo_url := logo_url
           metadata := metadata.getD [] }

/-- A node document: the dictionary produced for one node by
`GraphModel.to_json` (the `Node.to_dict` keys plus the two analytics keys;
`none` in `influence`/`community` means the key is absent). -/
structure NodeDoc where
  id : String
  label : String
  category : Option String
  valuation : Option ℚ
  role : Option String
  company_type : Option String
  logo_url : Option String
  metadata : List (String × String)
  influence : Option ℚ
  community : Option (Option Int)
deriving DecidableEq

/-- `Node.to_dict` of src/core/node.py (label falls back to the id when
falsy, metadata falls back to the empty dict). -/
def Node.to_dict (n : Node) : NodeDoc :=
  { id := n.id
    label := pyOrStr n.label n.id
    category := n.category
    valuation := n.valuation
    role := n.role
    company_type := n.company_type
    logo_url := n.logo_url
    metadata := pyOrList n.metadata []
    influence := none
    community := none }

/-- `Node.from_dict` of src/core/node.py: reconstructs a node through the
validating constructor (which can raise on a blank id). -/
def Node.from_dict (d : NodeDoc) : Option Node :=
  mkNode d.id (some d.label) d.category d.valuation d.role d.company_type
    d.logo_url (some (pyOrList d.metadata []))

/-- Edge attribute dictionary as written by
`GraphModel.add_or_update_edge` (always exactly these four keys). -/
structure EdgeData where
  relationship_type : String
  impact : ℚ
  directed : Bool
  metadata : List (String × String)
deriving DecidableEq

/-- An edge document as produced by `GraphModel.to_json`. -/
structure EdgeDoc where
  source : String
  target : String
  relationship_type : String
  impact : ℚ
  directed : Bool
  metadata : List (String × String)
deriving DecidableEq

/-- The attribute dictionary networkx keeps per node key.  `node` is the
stored `Node` object (`none` for a bare node silently created by
`DiGraph.add_edge`); `flatLabel` is the flat `label` attribute (kept in sync
with the node object by `add_or_update_node` and `rename_node`, absent on
bare nodes); `influence`/`community` are the analytics keys (`none` = key
absent; `some none` for `community` = key present with value `None`).  The
remaining flat `Node.to_dict` keys always mirror the stored node object and
are never read independently, so they are not duplicated here. -/
structure NodeAttrs where
  node : Option Node
  flatLabel : Option String
  influence : Option ℚ
  community : Option (Option Int)
deriving DecidableEq

/-- The attribute dictionary of a bare node auto-created by
`DiGraph.add_edge`. -/
def bareAttrs : NodeAttrs :=
  { node := none, flatLabel := none, influence := none, community := none }

/-- Lookup in an insertion-ordered association list (Python dict read). -/
def alookup {κ β : Type} [DecidableEq κ] : List (κ × β) → κ → Option β
  | [], _ => none
  | (k, v) :: t, q => if k = q then some v else alookup t q

/-- Update every binding of a key in place (Python dict write on a present
key; keys are unique in every state the code builds). -/
def aupdate {κ β : Type} [DecidableEq κ]
    (l : List (κ × β)) (q : κ) (f : β → β) : List (κ × β) :=
  l.map fun kv => (kv.1, if kv.1 = q then f kv.2 else kv.2)

/-- Remove a key (Python `del` / networkx node or edge removal). -/
def aremove {κ β : Type} [DecidableEq κ] (l : List (κ × β)) (q : κ) :
    List (κ × β) :=
  l.filter fun kv => kv.1 ≠ q

/-- The keys of an association list, in insertion order. -/
def akeys {κ β : Type} : List (κ × β) → List κ := List.map Prod.fst

/-- `GraphModel` of src/core/graph_model.py: a directed graph held as
insertion-ordered node and edge dictionaries (the analytics cache is not
modelled; no claim reads it). -/
structure GraphModel where
  nodes : List (String × NodeAttrs)
  edges : List ((String × String) × EdgeData)
deriving DecidableEq

/-- The empty graph (`GraphModel.__init__`). -/
def emptyGraph : GraphModel := { nodes := [], edges := [] }

/-- Membership test `node_id in self.graph`. -/
def hasNode (g : GraphModel) (k : String) : Bool :=
  (alookup g.nodes k).isSome

/-- `GraphModel.add_or_update_node`: networkx `add_node` with attributes
merges into an existing attribute dict (derived keys survive) and appends a
fresh entry otherwise. -/
def add_or_update_node (g : GraphModel) (n : Node) : GraphModel :=
  if hasNode g n.id then
    { g with
      nodes := aupdate g.nodes n.id fun a =>
        { a with node := some n, flatLabel := some (pyOrStr n.label n.id) } }
  else
    { g with
      nodes := g.nodes ++
        [(n.id, { node := some n, flatLabel := some (pyOrStr n.label n.id),
                  influence := none, community := none })] }

/-- `GraphModel.delete_node`: removes the node and every incident edge,
returning whether a node was found. -/
def delete_node (g : GraphModel) (k : String) : GraphModel × Bool :=
  if hasNode g k then
    ({ nodes := aremove g.nodes k
       edges := g.edges.filter fun e => e.1.1 ≠ k ∧ e.1.2 ≠ k }, true)
  else (g, false)

/-- `GraphModel.get_node`: an empty attribute dict is falsy in Python, so a
bare node yields `None`; otherwise the stored node object (if any) is
returned. -/
def get_node (g : GraphModel) (k : String) : Option Node :=
  match alookup g.nodes k with
  | none => none
  | some a => if a = bareAttrs then none else a.node

/-- `GraphModel.summary`: node count and edge count. -/
def summary (g : GraphModel) : Nat × Nat := (g.nodes.length, g.edges.length)

/-- The two exceptions `GraphModel.rename_node` raises (both `ValueError`
in Python: node not found, and target id already taken). -/
inductive RenameErr where
  | notFound
  | duplicateId
deriving DecidableEq

/-- `GraphModel.rename_node` of src/core/graph_model.py: validates, updates
the stored node object and flat label (only for a truthy new label), then
relabels the key (networkx `relabel_nodes` moves the renamed node to the end
of the node dict) and rewrites the endpoints of every edge. -/
def rename_node (g : GraphModel) (node_id new_id : String)
    (new_label : Option String) : Except RenameErr GraphModel :=
  match alookup g.nodes node_id with
  | none => .error .notFound
  | some a =>
    if new_id ≠ node_id ∧ hasNode g new_id then .error .duplicateId
    else
      let upd : Node → Node := fun nd =>
        { nd with
          id := new_id
          label :=
            match new_label with
            | none => nd.label
            | some l => if l = "" then nd.label else l }
      let a1 : NodeAttrs :=
        { a with
          node := a.node.map upd
          flatLabel :=
            match new_label with
            | none => a.flatLabel
            | some l => if l = "" then a.flatLabel else some l }
      let ren : String → String := fun s => if s = node_id then new_id else s
      .ok { nodes := aremove g.nodes node_id ++ [(new_id, a1)]
            edges := g.edges.map fun e => ((ren e.1.1, ren e.1.2), e.2) }

/-- The body of `GraphModel.add_or_update_edge` that ensures one endpoint
exists, via the validating `Node` constructor (which raises on a blank id). -/
def ensureEndpoint (g : GraphModel) (s : String) : Option GraphModel :=
  if hasNode g s then some g
  else (mkNode s (some s) none none none none none none).map (add_or_update_node g)

/-- The part of networkx `DiGraph.add_edge` that silently creates an
attribute-less node for a missing endpoint. -/
def addBare (g : GraphModel) (s : String) : GraphModel :=
  if hasNode g s then g else { g with nodes := g.nodes ++ [(s, bareAttrs)] }

/-- networkx `DiGraph.add_edge`: silently creates attribute-less nodes for
missing endpoints, then overwrites or appends the edge attribute dict. -/
def nxAddEdge (g : GraphModel) (s t : String) (e : EdgeData) : GraphModel :=
  let g2 := addBare (addBare g s) t
  if (alookup g2.edges (s, t)).isSome then
    { g2 with edges := aupdate g2.edges (s, t) fun _ => e }
  else
    { g2 with edges := g2.edges ++ [((s, t), e)] }

/-- `GraphModel.add_or_update_edge` of src/core/graph_model.py: ensures both
endpoint nodes exist (raising, with the partial state kept, when a blank
endpoint makes the `Node` constructor fail — the Bool is the no-raise flag),
clamps impact into [0,1], and writes the edge attributes. -/
def add_or_update_edge (g : GraphModel) (source target relationship_type : String)
    (impact : ℚ) (metadata : Option (List (String × String))) (directed : Bool) :
    GraphModel × Bool :=
  match ensureEndpoint g source with
  | none => (g, false)
  | some g1 =>
    match ensureEndpoint g1 target with
    | none => (g1, false)
    | some g2 =>
      let e : EdgeData :=
        { relationship_type := pyOrStr relationship_type "unknown"
          impact := max 0 (min 1 impact)
          directed := directed
          metadata := metadata.getD [] }
      (nxAddEdge g2 source target e, true)

/-- `GraphModel.delete_edge` of src/core/graph_model.py: removes the edge if
present, honouring the optional exact relationship-type filter, and returns
whether a removal occurred. -/
def delete_edge (g : GraphModel) (source target : String)
    (relationship_type : Option String) : GraphModel × Bool :=
  match alookup g.edges (source, target) with
  | none => (g, false)
  | some e =>
    match relationship_type with
    | some r =>
      if e.relationship_type ≠ r then (g, false)
      else ({ g with edges := aremove g.edges (source, target) }, true)
    | none => ({ g with edges := aremove g.edges (source, target) }, true)

/-- Maximum of the values of a score dict, with the source guard
`max(influence.values()) if influence else 1.0`. -/
def maxVal : List (String × ℚ) → ℚ
  | [] => 1
  | (_, v) :: t => t.foldl (fun acc kv => max acc kv.2) v

/-- The normalization step of `compute_influence` in src/core/analytics.py:
an empty score dict is returned as-is, a zero maximum is replaced by 1, and
every score is divided by the maximum. -/
def normalize_scores (influence : List (String × ℚ)) : List (String × ℚ) :=
  if influence.isEmpty then []
  else
    let m := maxVal influence
    let m := if m = 0 then 1 else m
    influence.map fun kv => (kv.1, kv.2 / m)

/-- One store step of `GraphModel.compute_influence`: write one normalized
score onto the node attribute dict, guarded by graph membership. -/
def inflStep (acc : GraphModel) (kv : String × ℚ) : GraphModel :=
  if hasNode acc kv.1 then
    { acc with
      nodes := aupdate acc.nodes kv.1 fun a => { a with influence := some kv.2 } }
  else acc

/-- `GraphModel.compute_influence` of src/core/graph_model.py, with the raw
centrality scores (eigenvector centrality, or degree centrality on the
undirected projection after a numerical failure — a numerical library call
that cannot be embedded) supplied as an oracle argument.  The graph code is
embedded faithfully: empty-graph guard, normalization, and the per-node
store with its membership guard. -/
def compute_influenceWith (g : GraphModel) (raw : List (String × ℚ)) :
    GraphModel :=
  if g.nodes.isEmpty then g
  else (normalize_scores raw).foldl inflStep g

/-- One store step of `GraphModel.compute_communities`. -/
def commStep (acc : GraphModel) (kv : String × Int) : GraphModel :=
  if hasNode acc kv.1 then
    { acc with
      nodes := aupdate acc.nodes kv.1 fun a => { a with community := some (some kv.2) } }
  else acc

/-- `GraphModel.compute_communities` of src/core/graph_model.py, with the
output of `greedy_modularity_communities` (flattened to a node-to-index
dict, as `compute_communities` in src/core/analytics.py does) supplied as an
oracle argument; the empty-graph guard and the guarded per-node store are
embedded from the source. -/
def compute_communitiesWith (g : GraphModel) (raw : List (String × Int)) :
    GraphModel :=
  if g.nodes.isEmpty then g
  else raw.foldl commStep g

/-- The versioned document produced by `GraphModel.to_json`. -/
structure Document where
  version : Nat
  nodes : List NodeDoc
  edges : List EdgeDoc
deriving DecidableEq

/-- The node document `GraphModel.to_json` builds for one node: the stored
node object when present, otherwise the flat-attribute fallback (a bare node
has no flat attributes, so everything defaults), then the two analytics keys
with their read defaults. -/
def nodeDocOf (k : String) (a : NodeAttrs) : NodeDoc :=
  let base : NodeDoc :=
    match a.node with
    | some nd => nd.to_dict
    | none =>
      { id := k, label := a.flatLabel.getD k, category := none,
        valuation := none, role := none, company_type := none,
        logo_url := none, metadata := [], influence := none, community := none }
  { base with
    influence := some (a.influence.getD 0)
    community := some (a.community.getD none) }

/-- The edge document `GraphModel.to_json` builds for one edge. -/
def edgeDocOf (e : (String × String) × EdgeData) : EdgeDoc :=
  { source := e.1.1, target := e.1.2,
    relationship_type := e.2.relationship_type, impact := e.2.impact,
    directed := e.2.directed, metadata := e.2.metadata }

/-- `GraphModel.to_json` of src/core/graph_model.py. -/
def to_json (g : GraphModel) : Document :=
  { version := 1
    nodes := g.nodes.map fun kv => nodeDocOf kv.1 kv.2
    edges := g.edges.map edgeDocOf }

/-- One node-document replay step of `GraphModel.from_json`: reconstruct the
node (which can raise), upsert it, then restore the analytics keys (under
the id of the reconstructed node) when present in the document. -/
def fromJsonNodeStep (g : GraphModel) (d : NodeDoc) : Option GraphModel :=
  (Node.from_dict d).map fun n =>
    let g1 := add_or_update_node g n
    let g2 :=
      match d.influence with
      | some v => { g1 with nodes := aupdate g1.nodes n.id fun a => { a with influence := some v } }
      | none => g1
    match d.community with
    | some c => { g2 with nodes := aupdate g2.nodes n.id fun a => { a with community := some c } }
    | none => g2

/-- One edge-document replay step of `GraphModel.from_json`. -/
def fromJsonEdgeStep (g : GraphModel) (d : EdgeDoc) : Option GraphModel :=
  match add_or_update_edge g d.source d.target d.relationship_type d.impact
      (some d.metadata) d.directed with
  | (g1, true) => some g1
  | (_, false) => none

/-- `GraphModel.from_json` of src/core/graph_model.py: replay every node
document, then every edge document, on a fresh model; any raise during the
replay propagates (`none`). -/
def from_json (d : Document) : Option GraphModel :=
  (d.nodes.foldlM fromJsonNodeStep emptyGraph).bind fun g =>
    d.edges.foldlM fromJsonEdgeStep g

/-- The public mutating operations of the Graph Store, plus the two
analytics recomputations with their numerical library results supplied as
oracle data (`upsertNode` carries the raw constructor payload, since the
`Node` constructor itself validates and trims). -/
inductive Op where
  | upsertNode (id : String) (label : Option String) (category : Option String)
      (valuation : Option ℚ) (role : Option String) (company_type : Option String)
      (logo_url : Option String) (metadata : Option (List (String × String)))
  | upsertEdge (source target relationship_type : String) (impact : ℚ)
      (metadata : Option (List (String × String))) (directed : Bool)
  | deleteNode (id : String)
  | deleteEdge (source target : String) (relationship_type : Option String)
  | renameNode (node_id new_id : String) (new_label : Option String)
  | computeInfluence (raw : List (String × ℚ))
  | computeCommunities (raw : List (String × Int))

/-- Apply one public operation; an operation that raises leaves the state it
reached (the raise happens before any mutation except for the partially
ensured endpoints of `add_or_update_edge`, which `add_or_update_edge`
already accounts for in its returned state). -/
def applyOp (g : GraphModel) : Op → GraphModel
  | .upsertNode id label category valuation role company_type logo_url metadata =>
    match mkNode id label category valuation role company_type logo_url metadata with
    | none => g
    | some n => add_or_update_node g n
  | .upsertEdge s t r i m d => (add_or_update_edge g s t r i m d).1
  | .deleteNode k => (delete_node g k).1
  | .deleteEdge s t r => (delete_edge g s t r).1
  | .renameNode k k2 l =>
    match rename_node g k k2 l with
    | .ok g1 => g1
    | .error _ => g
  | .computeInfluence raw => compute_influenceWith g raw
  | .computeCommunities raw => compute_communitiesWith g raw

/-- Run a sequence of public operations from the empty graph. -/
def runOps (ops : List Op) : GraphModel := ops.foldl applyOp emptyGraph

/-- A graph is reachable when some sequence of public operations produces
it from the empty graph. -/
def Reachable (g : GraphModel) : Prop := ∃ ops : List Op, runOps ops = g

/-- An operation is trim-clean when every id string it can introduce as a
graph key is unchanged by trimming (and, for strings that become keys
directly, non-empty). -/
def Op.goodb : Op → Bool
  | .upsertNode id _ _ _ _ _ _ _ => pyStrip id = id
  | .upsertEdge s t _ _ _ _ => pyStrip s = s && s ≠ "" && pyStrip t = t && t ≠ ""
  | .renameNode _ k2 _ => pyStrip k2 = k2 && k2 ≠ ""
  | _ => true

/-- The category-to-color table `CATEGORY_COLORS` of
src/visualization/color_schemes.py. -/
def CATEGORY_COLORS : List (String × String) :=
  [("ai lab", "#a855f7"),
   ("ai", "#a855f7"),
   ("cloud", "#22c55e"),
   ("cloud & software", "#06b6d4"),
   ("cloud & ai", "#3b82f6"),
   ("gpu hardware", "#f97316"),
   ("hardware", "#f97316"),
   ("cpu / foundry", "#ea580c"),
   ("vc", "#eab308"),
   ("investment", "#eab308"),
   ("startup", "#ec4899"),
   ("robotics", "#8b5cf6"),
   ("ai cloud", "#14b8a6"),
   ("services", "#10b981")]

/-- `DEFAULT_NODE_COLOR` of src/visualization/color_schemes.py. -/
def DEFAULT_NODE_COLOR : String := "#38bdf8"

/-- `get_category_color` of src/visualization/color_schemes.py: a falsy
category yields the default color, otherwise the lowercased and trimmed
category is looked up exactly in the table, with the default as fallback. -/
def get_category_color (category : Option String) : String :=
  match category with
  | none => DEFAULT_NODE_COLOR
  | some c =>
    if c = "" then DEFAULT_NODE_COLOR
    else (alookup CATEGORY_COLORS (pyStrip (pyLower c))).getD DEFAULT_NODE_COLOR

/-- A loosely-typed payload value, classified by the only observation the
code makes of it: whether Python `float()` succeeds on it.  `num` covers
numbers and numeric strings; `nonNumeric` covers `None`, the empty string
and every value on which `float()` raises. -/
inductive PyVal where
  | num (q : ℚ)
  | nonNumeric
deriving DecidableEq

/-- `AppController._safe_float` of src/ui/controller.py (identical in
src/api/controllers.py): missing, empty or unparsable values fall back to
the supplied default. -/
def safe_float (value : Option PyVal) (default : Option ℚ) : Option ℚ :=
  match value with
  | none => default
  | some .nonNumeric => default
  | some (.num q) => some q

/-- `sanitize_number` of src/utils/validators.py: an unparsable value falls
back to the caller-supplied default, then optional bounds are applied. -/
def sanitize_number (value : PyVal) (default : ℚ) (min_val max_val : Option ℚ) : ℚ :=
  match value with
  | .nonNumeric => default
  | .num q =>
    let r := match min_val with
      | some mn => if q < mn then mn else q
      | none => q
    match max_val with
    | some mx => if mx < r then mx else r
    | none => r

/-- The edge request payload consumed by
`AppController.add_or_update_edge_from_payload` in src/ui/controller.py. -/
structure EdgePayload where
  source : Option String
  target : Option String
  relationship_type : Option String
  impact : Option PyVal
  metadata : Option (List (String × String))

/-- `AppController.add_or_update_edge_from_payload` of src/ui/controller.py:
strips source and target (raising when either is blank), defaults a falsy
relationship type to "unknown", resolves impact through `_safe_float` with
default 0.5, and writes the edge (persistence is an external collaborator
and is not modelled). -/
def add_or_update_edge_from_payload (g : GraphModel) (p : EdgePayload) :
    Option GraphModel :=
  let source := pyStrip (p.source.getD "")
  let target := pyStrip (p.target.getD "")
  if source = "" ∨ target = "" then none
  else
    let relationship_type := pyStrip (pyOrStr (p.relationship_type.getD "") "unknown")
    let impact := (safe_float p.impact (some 0.5)).getD 0.5
    match add_or_update_edge g source target relationship_type impact
        (some (pyOrList (p.metadata.getD []) [])) true with
    | (g1, true) => some g1
    | (_, false) => none

/-! ### Association-list lemmas -/

theorem alookup_eq_none {κ β : Type} [DecidableEq κ] {l : List (κ × β)} {q : κ} :
    alookup l q = none ↔ q ∉ akeys l := by
  induction l with
  | nil => simp [alookup, akeys]
  | cons kv t ih =>
    obtain ⟨k, v⟩ := kv
    by_cases hk : k = q <;> simp [alookup, akeys, hk, ih, Ne.symm]

theorem alookup_append {κ β : Type} [DecidableEq κ] {l1 l2 : List (κ × β)} {q : κ}
    (h : q ∉ akeys l1) : alookup (l1 ++ l2) q = alookup l2 q := by
  induction l1 with
  | nil => simp
  | cons kv t ih =>
    obtain ⟨k, v⟩ := kv
    simp only [akeys, List.map_cons, List.mem_cons, not_or] at h
    simp [alookup, h.1, Ne.symm h.1, ih h.2]

theorem alookup_append_left {κ β : Type} [DecidableEq κ] {l1 l2 : List (κ × β)}
    {q : κ} {v : β} (h : alookup l1 q = some v) :
    alookup (l1 ++ l2) q = some v := by
  induction l1 with
  | nil => simp [alookup] at h
  | cons kv t ih =>
    obtain ⟨k, w⟩ := kv
    by_cases hk : k = q <;> simp_all [alookup]

theorem akeys_append {κ β : Type} {l1 l2 : List (κ × β)} :
    akeys (l1 ++ l2) = akeys l1 ++ akeys l2 := by
  simp [akeys]

theorem akeys_aupdate {κ β : Type} [DecidableEq κ] {l : List (κ × β)} {q : κ}
    {f : β → β} : akeys (aupdate l q f) = akeys l := by
  simp [akeys, aupdate, List.map_map, Function.comp]

theorem alookup_aupdate {κ β : Type} [DecidableEq κ] (l : List (κ × β)) (q p : κ)
    (f : β → β) :
    alookup (aupdate l q f) p =
      if p = q then (alookup l p).map f else alookup l p := by
  induction l with
  | nil => by_cases hp : p = q <;> simp [aupdate, alookup, hp]
  | cons kv t ih =>
    obtain ⟨k, v⟩ := kv
    have hstep : aupdate ((k, v) :: t) q f =
        (k, if k = q then f v else v) :: aupdate t q f := rfl
    rw [hstep]
    by_cases hkp : k = p
    · subst hkp
      by_cases hkq : k = q <;> simp [alookup, hkq]
    · rw [show alookup ((k, if k = q then f v else v) :: aupdate t q f) p
            = alookup (aupdate t q f) p by simp [alookup, hkp],
          ih,
          show alookup ((k, v) :: t) p = alookup t p by simp [alookup, hkp]]

theorem alookup_aremove {κ β : Type} [DecidableEq κ] (l : List (κ × β)) (q p : κ) :
    alookup (aremove l q) p = if p = q then none else alookup l p := by
  induction l with
  | nil => by_cases hp : p = q <;> simp [aremove, alookup, hp]
  | cons kv t ih =>
    obtain ⟨k, v⟩ := kv
    by_cases hk : k = q
    · subst hk
      have hstep : aremove ((k, v) :: t) k = aremove t k := by
        simp [aremove, List.filter_cons]
      rw [hstep, ih]
      by_cases hp : p = k
      · simp [hp]
      · simp [alookup, hp, Ne.symm hp]
    · have hstep : aremove ((k, v) :: t) q = (k, v) :: aremove t q := by
        simp [aremove, List.filter_cons, hk]
      rw [hstep]
      by_cases hkp : k = p
      · subst hkp
        simp [alookup, hk]
      · rw [show alookup ((k, v) :: aremove t q) p = alookup (aremove t q) p by
              simp [alookup, hkp],
            ih,
            show alookup ((k, v) :: t) p = alookup t p by simp [alookup, hkp]]

theorem alookup_filter_keep {κ β : Type} [DecidableEq κ] (l : List (κ × β))
    (q : (κ × β) → Bool) (p : κ) (h : ∀ v, q (p, v) = true) :
    alookup (l.filter q) p = alookup l p := by
  induction l with
  | nil => rfl
  | cons kv t ih =>
    obtain ⟨k, v⟩ := kv
    by_cases hk : k = p
    · subst hk
      simp [alookup, List.filter, h v, ih]
    · by_cases hq : q (k, v) = true <;> simp [alookup, List.filter, hk, hq, ih]

theorem alookup_filter_drop {κ β : Type} [DecidableEq κ] (l : List (κ × β))
    (q : (κ × β) → Bool) (p : κ) (h : ∀ v, q (p, v) = false) :
    alookup (l.filter q) p = none := by
  induction l with
  | nil => rfl
  | cons kv t ih =>
    obtain ⟨k, v⟩ := kv
    by_cases hk : k = p
    · subst hk
      simp [List.filter, h v, ih]
    · by_cases hq : q (k, v) = true <;> simp [alookup, List.filter, hk, hq, ih]

theorem alookup_isSome_iff {κ β : Type} [DecidableEq κ] {l : List (κ × β)} {q : κ} :
    (alookup l q).isSome = true ↔ q ∈ akeys l := by
  rw [Option.isSome_iff_ne_none, ne_eq, alookup_eq_none]
  exact not_not

theorem alookup_mem {κ β : Type} [DecidableEq κ] {l : List (κ × β)} {q : κ}
    {v : β} (h : alookup l q = some v) : (q, v) ∈ l := by
  induction l with
  | nil => simp [alookup] at h
  | cons kv t ih =>
    obtain ⟨k, w⟩ := kv
    by_cases hk : k = q
    · subst hk
      simp [alookup] at h
      subst h
      exact List.mem_cons_self _ _
    · simp only [alookup, if_neg hk] at h
      exact List.mem_cons_of_mem _ (ih h)

theorem mem_aupdate {κ β : Type} [DecidableEq κ] {l : List (κ × β)} {q : κ}
    {f : β → β} {kv : κ × β} (h : kv ∈ aupdate l q f) :
    ∃ kw ∈ l, kv = (kw.1, if kw.1 = q then f kw.2 else kw.2) := by
  simp only [aupdate, List.mem_map] at h
  obtain ⟨kw, hkw, hkv⟩ := h
  exact ⟨kw, hkw, hkv.symm⟩

theorem mem_aremove {κ β : Type} [DecidableEq κ] {l : List (κ × β)} {q : κ}
    {kv : κ × β} (h : kv ∈ aremove l q) : kv ∈ l ∧ kv.1 ≠ q := by
  have h1 := List.mem_of_mem_filter h
  have h2 := List.of_mem_filter h
  simpa using ⟨h1, by simpa using h2⟩

theorem mem_akeys_aremove {κ β : Type} [DecidableEq κ] {l : List (κ × β)} {q x : κ} :
    x ∈ akeys (aremove l q) ↔ x ∈ akeys l ∧ x ≠ q := by
  simp only [akeys, aremove, List.mem_map]
  constructor
  · rintro ⟨kv, hkv, rfl⟩
    have h1 := List.mem_of_mem_filter hkv
    have h2 := List.of_mem_filter hkv
    exact ⟨⟨kv, h1, rfl⟩, by simpa using h2⟩
  · rintro ⟨⟨kv, hkv, rfl⟩, hx⟩
    exact ⟨kv, List.mem_filter.mpr ⟨hkv, by simpa using hx⟩, rfl⟩

theorem nodup_akeys_aremove {κ β : Type} [DecidableEq κ] {l : List (κ × β)} {q : κ}
    (h : (akeys l).Nodup) : (akeys (aremove l q)).Nodup := by
  have hsub : List.Sublist (aremove l q) l := List.filter_sublist _
  exact h.sublist (hsub.map _)

theorem aupdate_append_right {κ β : Type} [DecidableEq κ] {l : List (κ × β)}
    {q : κ} {b : β} {f : β → β} (h : q ∉ akeys l) :
    aupdate (l ++ [(q, b)]) q f = l ++ [(q, f b)] := by
  induction l with
  | nil => simp [aupdate]
  | cons kv t ih =>
    obtain ⟨k, v⟩ := kv
    simp only [akeys, List.map_cons, List.mem_cons, not_or] at h
    simp only [List.cons_append, aupdate, List.map_cons] at ih ⊢
    rw [if_neg (by exact fun hc => h.1 hc.symm)]
    have := ih (by simpa [akeys] using h.2)
    simp only [aupdate] at this
    simp [this]

theorem alookup_append_one {κ β : Type} [DecidableEq κ] {l : List (κ × β)}
    {k p : κ} {v : β} :
    alookup (l ++ [(k, v)]) p =
      match alookup l p with
      | some w => some w
      | none => if k = p then some v else none := by
  cases h : alookup l p with
  | some w => simp [alookup_append_left h]
  | none =>
    rw [alookup_append (alookup_eq_none.mp h)]
    rfl

theorem alookup_mapVal {κ β β2 : Type} [DecidableEq κ] {l : List (κ × β)}
    {f : β → β2} {q : κ} :
    alookup (l.map fun kv => (kv.1, f kv.2)) q = (alookup l q).map f := by
  induction l with
  | nil => rfl
  | cons kv t ih =>
    obtain ⟨k, v⟩ := kv
    by_cases hk : k = q <;> simp [alookup, hk, ih]

theorem akeys_mapVal {κ β β2 : Type} {l : List (κ × β)} {f : β → β2} :
    akeys (l.map fun kv => (kv.1, f kv.2)) = akeys l := by
  simp [akeys, List.map_map, Function.comp]

theorem pyOrList_nil (m : List (String × String)) : pyOrList m [] = m := by
  cases m <;> simp [pyOrList]

theorem pyOrStr_ne_empty {s d : String} (h : d ≠ "") : pyOrStr s d ≠ "" := by
  unfold pyOrStr
  by_cases hs : s = "" <;> simp [hs, h]

theorem clamp_bounds (x : ℚ) : 0 ≤ max 0 (min 1 x) ∧ max 0 (min 1 x) ≤ 1 := by
  constructor
  · exact le_max_left 0 _
  · rw [max_le_iff]
    exact ⟨by norm_num, min_le_left 1 x⟩

theorem clamp_id {x : ℚ} (h0 : 0 ≤ x) (h1 : x ≤ 1) : max 0 (min 1 x) = x := by
  rw [min_eq_right h1, max_eq_right h0]

/-! ### Operation-level structural lemmas -/

theorem add_or_update_node_edges (g : GraphModel) (n : Node) :
    (add_or_update_node g n).edges = g.edges := by
  unfold add_or_update_node
  split <;> rfl

theorem ensureEndpoint_edges {g g1 : GraphModel} {s : String}
    (h : ensureEndpoint g s = some g1) : g1.edges = g.edges := by
  unfold ensureEndpoint at h
  by_cases hs : hasNode g s = true
  · rw [if_pos hs] at h
    cases h
    rfl
  · rw [if_neg hs] at h
    cases hm : mkNode s (some s) none none none none none none with
    | none => rw [hm] at h; cases h
    | some n =>
      rw [hm] at h
      cases h
      exact add_or_update_node_edges g n

theorem addBare_edges (g : GraphModel) (s : String) :
    (addBare g s).edges = g.edges := by
  unfold addBare
  split <;> rfl

theorem addBare_of_present {g : GraphModel} {s : String}
    (hs : hasNode g s = true) : addBare g s = g := by
  unfold addBare
  rw [if_pos hs]

theorem nxAddEdge_nodes_of_present {g : GraphModel} {s t : String} {e : EdgeData}
    (hs : hasNode g s = true) (ht : hasNode g t = true) :
    (nxAddEdge g s t e).nodes = g.nodes := by
  unfold nxAddEdge
  rw [addBare_of_present hs, addBare_of_present ht]
  dsimp only
  split <;> rfl

theorem nxAddEdge_edges_eq (g : GraphModel) (s t : String) (e : EdgeData) :
    (nxAddEdge g s t e).edges =
      if (alookup g.edges (s, t)).isSome then aupdate g.edges (s, t) fun _ => e
      else g.edges ++ [((s, t), e)] := by
  unfold nxAddEdge
  dsimp only
  rw [addBare_edges, addBare_edges]
  split <;> rfl

theorem nxAddEdge_lookup (g : GraphModel) (s t : String) (e : EdgeData)
    (p : String × String) :
    alookup (nxAddEdge g s t e).edges p =
      if p = (s, t) then some e else alookup g.edges p := by
  rw [nxAddEdge_edges_eq]
  split
  case isTrue hsome =>
    rw [alookup_aupdate]
    by_cases hp : p = (s, t)
    · subst hp
      obtain ⟨w, hw⟩ := Option.isSome_iff_exists.mp hsome
      simp [hw]
    · simp [hp]
  case isFalse hnone =>
    have hnone2 : alookup g.edges (s, t) = none := by
      cases h : alookup g.edges (s, t) with
      | none => rfl
      | some w => rw [h] at hnone; simp at hnone
    rw [alookup_append_one]
    by_cases hp : p = (s, t)
    · subst hp
      simp [hnone2]
    · cases h : alookup g.edges p with
      | none => simp [h, Ne.symm hp, hp]
      | some w => simp [h, hp]

/-- The impact invariant: every edge record in the graph carries an impact
in [0, 1]. -/
def ImpactInv (g : GraphModel) : Prop :=
  ∀ pe ∈ g.edges, 0 ≤ pe.2.impact ∧ pe.2.impact ≤ 1

theorem impactInv_add_or_update_edge {g : GraphModel} (hg : ImpactInv g)
    (s t rel : String) (i : ℚ) (m : Option (List (String × String))) (d : Bool) :
    ImpactInv (add_or_update_edge g s t rel i m d).1 := by
  unfold add_or_update_edge
  cases h1 : ensureEndpoint g s with
  | none => exact hg
  | some g1 =>
    have hg1 : ImpactInv g1 := by
      intro pe hpe
      exact hg pe (by rwa [ensureEndpoint_edges h1] at hpe)
    dsimp only
    cases h2 : ensureEndpoint g1 t with
    | none => exact hg1
    | some g2 =>
      have hg2 : ImpactInv g2 := by
        intro pe hpe
        exact hg1 pe (by rwa [ensureEndpoint_edges h2] at hpe)
      dsimp only
      intro pe hpe
      rw [nxAddEdge_edges_eq] at hpe
      have hbound := clamp_bounds i
      split at hpe
      · obtain ⟨kw, hkw, hkv⟩ := mem_aupdate hpe
        rw [hkv]
        by_cases hq : kw.1 = (s, t)
        · simpa [hq] using hbound
        · simp only [hq, if_false]
          exact hg2 kw hkw
      · rcases List.mem_append.mp hpe with hold | hnew
        · exact hg2 pe hold
        · simp only [List.mem_singleton] at hnew
          rw [hnew]
          exact hbound

theorem impactInv_applyOp {g : GraphModel} (hg : ImpactInv g) (op : Op) :
    ImpactInv (applyOp g op) := by
  cases op with
  | upsertNode id label category valuation role company_type logo_url metadata =>
    simp only [applyOp]
    cases mkNode id label category valuation role company_type logo_url metadata with
    | none => exact hg
    | some n =>
      intro pe hpe
      rw [add_or_update_node_edges] at hpe
      exact hg pe hpe
  | upsertEdge s t rel i m d => exact impactInv_add_or_update_edge hg s t rel i m d
  | deleteNode k =>
    simp only [applyOp, delete_node]
    split
    · intro pe hpe
      exact hg pe (List.mem_of_mem_filter hpe)
    · exact hg
  | deleteEdge s t r =>
    simp only [applyOp]
    intro pe hpe
    have hmem : pe ∈ g.edges := by
      cases h : alookup g.edges (s, t) with
      | none => simpa [delete_edge, h] using hpe
      | some e =>
        cases r with
        | none =>
          have hrm : pe ∈ aremove g.edges (s, t) := by
            simpa [delete_edge, h] using hpe
          exact (mem_aremove hrm).1
        | some rt =>
          by_cases hrt : e.relationship_type = rt
          · have hrm : pe ∈ aremove g.edges (s, t) := by
              simpa [delete_edge, h, hrt] using hpe
            exact (mem_aremove hrm).1
          · simpa [delete_edge, h, hrt] using hpe
    exact hg pe hmem
  | renameNode k k2 l =>
    simp only [applyOp]
    cases hr : rename_node g k k2 l with
    | error e => exact hg
    | ok g1 =>
      intro pe hpe
      dsimp only at hpe
      unfold rename_node at hr
      cases hl : alookup g.nodes k with
      | none => rw [hl] at hr; cases hr
      | some a =>
        rw [hl] at hr
        dsimp only at hr
        by_cases hdup : k2 ≠ k ∧ hasNode g k2 = true
        · rw [if_pos hdup] at hr; cases hr
        · rw [if_neg hdup] at hr
          cases hr
          simp only [List.mem_map] at hpe
          obtain ⟨pe0, hpe0, hpee⟩ := hpe
          rw [← hpee]
          exact hg pe0 hpe0
  | computeInfluence raw =>
    simp only [applyOp, compute_influenceWith]
    split
    · exact hg
    · have hfold : ∀ (scores : List (String × ℚ)) (g0 : GraphModel), ImpactInv g0 →
          ImpactInv (scores.foldl inflStep g0) := by
        intro scores
        induction scores with
        | nil => intro g0 h0; exact h0
        | cons kv t ih =>
          intro g0 h0
          simp only [List.foldl_cons]
          apply ih
          unfold inflStep
          split <;> [exact h0; exact h0]
      exact hfold _ g hg
  | computeCommunities raw =>
    simp only [applyOp, compute_communitiesWith]
    split
    · exact hg
    · have hfold : ∀ (scores : List (String × Int)) (g0 : GraphModel), ImpactInv g0 →
          ImpactInv (scores.foldl commStep g0) := by
        intro scores
        induction scores with
        | nil => intro g0 h0; exact h0
        | cons kv t ih =>
          intro g0 h0
          simp only [List.foldl_cons]
          apply ih
          unfold commStep
          split <;> [exact h0; exact h0]
      exact hfold _ g hg

theorem impactInv_runOps (ops : List Op) : ImpactInv (runOps ops) := by
  have hgen : ∀ (l : List Op) (g : GraphModel), ImpactInv g →
      ImpactInv (l.foldl applyOp g) := by
    intro l
    induction l with
    | nil => intro g h; exact h
    | cons op t ih =>
      intro g h
      exact ih _ (impactInv_applyOp h op)
  exact hgen ops emptyGraph (by intro pe hpe; simp [emptyGraph] at hpe)

/-! ### Claim C3: impact clamping -/

/-- Claim C3: every successful `upsertEdge` call stores an impact in
[0, 1] whatever numeric impact was supplied (the stored value is the clamp
of the input), and consequently every edge of every reachable graph carries
an impact in [0, 1]. -/
theorem upsertEdge_impact_always_clamped :
    (∀ (g : GraphModel) (s t rel : String) (i : ℚ)
        (m : Option (List (String × String))) (d : Bool) (g1 : GraphModel),
      add_or_update_edge g s t rel i m d = (g1, true) →
      ∃ e, alookup g1.edges (s, t) = some e ∧ e.impact = max 0 (min 1 i)
        ∧ 0 ≤ e.impact ∧ e.impact ≤ 1)
    ∧ (∀ g : GraphModel, Reachable g → ImpactInv g) := by
  constructor
  · intro g s t rel i m d g1 h
    unfold add_or_update_edge at h
    cases h1 : ensureEndpoint g s with
    | none => rw [h1] at h; cases h
    | some ga =>
      rw [h1] at h
      dsimp only at h
      cases h2 : ensureEndpoint ga t with
      | none =>
        rw [h2] at h
        dsimp only at h
        simp at h
      | some gb =>
        rw [h2] at h
        dsimp only at h
        injection h with h1 _
        subst h1
        exact ⟨{ relationship_type := pyOrStr rel "unknown", impact := max 0 (min 1 i),
                 directed := d, metadata := m.getD [] },
               by rw [nxAddEdge_lookup]; simp, rfl, clamp_bounds i⟩
  · rintro g ⟨ops, rfl⟩
    exact impactInv_runOps ops

set_option maxHeartbeats 1000000 in
/-- Witness for C3 at impact -5: the stored impact is the clamp of -5. -/
theorem upsertEdge_impact_always_clamped_witness :
    ∃ e, alookup ((add_or_update_edge emptyGraph "A" "B" "x" (-5) none true).1).edges
      ("A", "B") = some e ∧ e.impact = max 0 (min 1 (-5))
      ∧ 0 ≤ e.impact ∧ e.impact ≤ 1 := by
  exact upsertEdge_impact_always_clamped.1 emptyGraph "A" "B" "x" (-5) none true
    (add_or_update_edge emptyGraph "A" "B" "x" (-5) none true).1 (by decide)

/-! ### Claim C4: deleteNode removes the node and its incident edges -/

/-- Claim C4: `deleteNode(id)` removes the node and every edge whose source
or target is that id (afterwards no edge key mentions it and the node is
gone), returns `true` exactly when a node with that id was present, returns
`false` otherwise with the graph unchanged, and keeps every edge not
incident to the deleted node. -/
theorem deleteNode_removes_node_and_incident_edges (g : GraphModel) (k : String) :
    (hasNode g k = true →
      ∀ p, p ∈ akeys (delete_node g k).1.edges → p.1 ≠ k ∧ p.2 ≠ k)
    ∧ hasNode (delete_node g k).1 k = false
    ∧ ((delete_node g k).2 = true ↔ hasNode g k = true)
    ∧ ((delete_node g k).2 = false → (delete_node g k).1 = g)
    ∧ (∀ p e, alookup g.edges p = some e → p.1 ≠ k → p.2 ≠ k →
        alookup (delete_node g k).1.edges p = some e) := by
  by_cases h : hasNode g k = true
  · simp only [delete_node, h, if_true]
    refine ⟨?_, ?_, by simp, by simp, ?_⟩
    · intro _ p hp
      simp only [akeys, List.mem_map] at hp
      obtain ⟨e, he, hpe⟩ := hp
      have := List.of_mem_filter he
      subst hpe
      simpa using this
    · have : alookup (aremove g.nodes k) k = none := by
        rw [alookup_aremove]; simp
      simp [hasNode, this]
    · intro p e hpe hp1 hp2
      rw [alookup_filter_keep]
      · exact hpe
      · intro v
        simp [hp1, hp2]
  · simp only [delete_node, h, if_false]
    exact ⟨by simp, by simpa using h, by simp [h],
      by simp, by intro p e hpe _ _; exact hpe⟩

/-- Witness for C4 at a concrete graph: deleting "A" from the demo graph
with edge A→B drops the edge, and the preserved-edge clause applies to a
graph with an unrelated edge. -/
theorem deleteNode_removes_node_and_incident_edges_witness :
    (∀ p, p ∈ akeys (delete_node (runOps
      [.upsertEdge "A" "B" "x" 1 none true]) "A").1.edges →
      p.1 ≠ "A" ∧ p.2 ≠ "A") := by
  exact (deleteNode_removes_node_and_incident_edges
    (runOps [.upsertEdge "A" "B" "x" 1 none true]) "A").1 (by decide)

/-! ### Claim C10: deleteEdge never modifies the node set -/

/-- Claim C10: `delete_edge` leaves the node dictionary untouched for every
argument triple, at most removes the single (source, target) edge (every
other edge key keeps its exact data), and when it returns `false` the whole
graph is unchanged. -/
theorem deleteEdge_preserves_nodes (g : GraphModel) (s t : String)
    (r : Option String) :
    (delete_edge g s t r).1.nodes = g.nodes
    ∧ ((delete_edge g s t r).2 = false → (delete_edge g s t r).1 = g)
    ∧ (∀ p, p ≠ (s, t) →
        alookup (delete_edge g s t r).1.edges p = alookup g.edges p)
    ∧ ((delete_edge g s t r).2 = true →
        alookup (delete_edge g s t r).1.edges (s, t) = none) := by
  cases he : alookup g.edges (s, t) with
  | none =>
    simp [delete_edge, he]
  | some e =>
    cases r with
    | none =>
      simp [delete_edge, he, alookup_aremove]
      exact fun a b h1 h2 h3 => absurd h3 (h1 h2)
    | some rt =>
      by_cases hrt : e.relationship_type = rt <;>
        simp [delete_edge, he, hrt, alookup_aremove] <;>
        exact fun a b h1 h2 h3 => absurd h3 (h1 h2)

/-- Witness for C10: deleting a missing edge from the one-edge demo graph
returns false and leaves the graph unchanged. -/
theorem deleteEdge_preserves_nodes_witness :
    (delete_edge (runOps [.upsertEdge "A" "B" "x" 1 none true]) "B" "A" none).1
      = runOps [.upsertEdge "A" "B" "x" 1 none true] := by
  exact (deleteEdge_preserves_nodes
    (runOps [.upsertEdge "A" "B" "x" 1 none true]) "B" "A" none).2.1 (by decide)

/-- The demo graph with the single edge A→B. -/
def gAB : GraphModel := runOps [.upsertEdge "A" "B" "x" 1 none true]

/-! ### Claim C2: influence normalization -/

theorem foldlMax_spec (t : List (String × ℚ)) (v : ℚ) :
    (t.foldl (fun acc kv => max acc kv.2) v = v
      ∨ ∃ kv ∈ t, t.foldl (fun acc kv => max acc kv.2) v = kv.2)
    ∧ v ≤ t.foldl (fun acc kv => max acc kv.2) v
    ∧ ∀ kv ∈ t, kv.2 ≤ t.foldl (fun acc kv => max acc kv.2) v := by
  induction t generalizing v with
  | nil => exact ⟨Or.inl rfl, le_refl _, by simp⟩
  | cons kv0 t ih =>
    simp only [List.foldl_cons]
    obtain ⟨hatt, hle, hall⟩ := ih (max v kv0.2)
    refine ⟨?_, le_trans (le_max_left _ _) hle, ?_⟩
    · rcases hatt with h | ⟨kv1, hkv1, h⟩
      · rcases max_choice v kv0.2 with hm | hm
        · exact Or.inl (h.trans hm)
        · exact Or.inr ⟨kv0, List.mem_cons_self _ _, h.trans hm⟩
      · exact Or.inr ⟨kv1, List.mem_cons_of_mem _ hkv1, h⟩
    · intro kv hkv
      rcases List.mem_cons.mp hkv with rfl | hkv
      · exact le_trans (le_max_right _ _) hle
      · exact hall kv hkv

theorem maxVal_mem {l : List (String × ℚ)} (h : l ≠ []) :
    ∃ kv ∈ l, kv.2 = maxVal l := by
  cases l with
  | nil => exact absurd rfl h
  | cons kv0 t =>
    unfold maxVal
    rcases (foldlMax_spec t kv0.2).1 with h1 | ⟨kv1, hkv1, h1⟩
    · exact ⟨kv0, List.mem_cons_self _ _, h1.symm⟩
    · exact ⟨kv1, List.mem_cons_of_mem _ hkv1, h1.symm⟩

theorem maxVal_ge {l : List (String × ℚ)} {kv : String × ℚ} (h : kv ∈ l) :
    kv.2 ≤ maxVal l := by
  cases l with
  | nil => simp at h
  | cons kv0 t =>
    unfold maxVal
    rcases List.mem_cons.mp h with rfl | hmem
    · exact (foldlMax_spec t kv.2).2.1
    · exact (foldlMax_spec t kv0.2).2.2 kv hmem

theorem inflStep_lookup (g : GraphModel) (kv : String × ℚ) (k : String) :
    alookup (inflStep g kv).nodes k =
      if k = kv.1 ∧ hasNode g kv.1 = true then
        (alookup g.nodes k).map (fun a => { a with influence := some kv.2 })
      else alookup g.nodes k := by
  unfold inflStep
  by_cases h : hasNode g kv.1 = true
  · rw [if_pos h]
    dsimp only
    rw [alookup_aupdate]
    by_cases hk : k = kv.1 <;> simp [hk, h]
  · rw [if_neg h]
    rw [if_neg (fun hc => h hc.2)]

theorem inflStep_hasNode (g : GraphModel) (kv : String × ℚ) (k : String) :
    hasNode (inflStep g kv) k = hasNode g k := by
  unfold hasNode
  rw [inflStep_lookup]
  split
  · cases alookup g.nodes k <;> rfl
  · rfl

theorem foldlInfl_other (scores : List (String × ℚ)) (g : GraphModel) (k : String)
    (h : k ∉ akeys scores) :
    alookup (scores.foldl inflStep g).nodes k = alookup g.nodes k := by
  induction scores generalizing g with
  | nil => rfl
  | cons kv t ih =>
    simp only [akeys, List.map_cons, List.mem_cons, not_or] at h
    simp only [List.foldl_cons]
    rw [ih _ (by simpa [akeys] using h.2), inflStep_lookup,
      if_neg (fun hc => h.1 hc.1)]

theorem foldlInfl_hit (scores : List (String × ℚ)) (g : GraphModel)
    (k : String) (v : ℚ) (hnd : (akeys scores).Nodup) (hmem : (k, v) ∈ scores)
    (hhas : hasNode g k = true) :
    alookup (scores.foldl inflStep g).nodes k =
      (alookup g.nodes k).map (fun a => { a with influence := some v }) := by
  induction scores generalizing g with
  | nil => simp at hmem
  | cons kv0 t ih =>
    simp only [List.foldl_cons]
    rw [show akeys (kv0 :: t) = kv0.1 :: akeys t from rfl] at hnd
    obtain ⟨hnotin, hndt⟩ := List.nodup_cons.mp hnd
    rcases List.mem_cons.mp hmem with heq | hmemt
    · subst heq
      rw [foldlInfl_other t _ k (by simpa using hnotin), inflStep_lookup,
        if_pos ⟨rfl, hhas⟩]
    · have hk1 : ¬ k = kv0.1 := by
        intro hc
        apply hnotin
        rw [← hc]
        exact List.mem_map.mpr ⟨(k, v), hmemt, rfl⟩
      rw [ih _ hndt hmemt (by rw [inflStep_hasNode]; exact hhas),
        inflStep_lookup, if_neg (fun hc => hk1 hc.1)]

/-- Claim C2: after `computeInfluence` on a non-empty graph — given the raw
centrality scores, which are nonnegative and cover exactly the node set, as
both eigenvector centrality and degree centrality do — every node's stored
influence is in [0, 1]; all stored influences are 0 when every raw score was
0 (the zero maximum is replaced by 1 as the divisor), and otherwise some
node's stored influence is exactly 1. -/
theorem computeInfluence_normalizes (g : GraphModel) (raw : List (String × ℚ))
    (hne : g.nodes ≠ [])
    (hnn : ∀ kv ∈ raw, 0 ≤ kv.2)
    (hcov1 : ∀ k ∈ akeys g.nodes, k ∈ akeys raw)
    (hcov2 : ∀ k ∈ akeys raw, k ∈ akeys g.nodes)
    (hnd : (akeys raw).Nodup) :
    (∀ k ∈ akeys g.nodes, ∃ v,
      (alookup (compute_influenceWith g raw).nodes k).bind (fun a => a.influence) = some v
      ∧ 0 ≤ v ∧ v ≤ 1)
    ∧ ((∀ kv ∈ raw, kv.2 = 0) →
        ∀ k ∈ akeys g.nodes,
          (alookup (compute_influenceWith g raw).nodes k).bind (fun a => a.influence)
            = some 0)
    ∧ ((¬ ∀ kv ∈ raw, kv.2 = 0) →
        ∃ k ∈ akeys g.nodes,
          (alookup (compute_influenceWith g raw).nodes k).bind (fun a => a.influence)
            = some 1) := by
  have hrawne : raw ≠ [] := by
    cases hg : g.nodes with
    | nil => exact absurd hg hne
    | cons kv t =>
      intro hraw
      have := hcov1 kv.1 (by rw [hg]; exact List.mem_cons_self _ _)
      rw [hraw] at this
      simp [akeys] at this
  have hempty : ¬ (g.nodes.isEmpty = true) := by
    cases hg : g.nodes with
    | nil => exact absurd hg hne
    | cons kv t => simp [hg]
  have hcomp : compute_influenceWith g raw = (normalize_scores raw).foldl inflStep g := by
    unfold compute_influenceWith
    rw [if_neg hempty]
  have hrawemp : ¬ (raw.isEmpty = true) := by
    cases hr : raw with
    | nil => exact absurd hr hrawne
    | cons kv t => simp [hr]
  have hnorm : normalize_scores raw =
      raw.map (fun kv => (kv.1, kv.2 / (if maxVal raw = 0 then 1 else maxVal raw))) := by
    unfold normalize_scores
    rw [if_neg hrawemp]
  have hndn : (akeys (normalize_scores raw)).Nodup := by
    have hkeq : akeys (normalize_scores raw) = akeys raw := by
      rw [hnorm]
      simp [akeys, List.map_map, Function.comp]
    rw [hkeq]
    exact hnd
  -- the stored value for a node k with raw score v0
  have hstore : ∀ k v0, (k, v0) ∈ raw → k ∈ akeys g.nodes →
      (alookup (compute_influenceWith g raw).nodes k).bind (fun a => a.influence)
        = some (v0 / (if maxVal raw = 0 then 1 else maxVal raw)) := by
    intro k v0 hmem hkg
    have hhas : hasNode g k = true := alookup_isSome_iff.mpr hkg
    have hmem2 : (k, v0 / (if maxVal raw = 0 then 1 else maxVal raw))
        ∈ normalize_scores raw := by
      rw [hnorm]
      exact List.mem_map.mpr ⟨(k, v0), hmem, rfl⟩
    rw [hcomp, foldlInfl_hit _ _ _ _ hndn hmem2 hhas]
    obtain ⟨a, ha⟩ := Option.isSome_iff_exists.mp (alookup_isSome_iff.mpr hkg)
    rw [ha]
    rfl
  have hkey : ∀ k ∈ akeys g.nodes, ∃ v0, (k, v0) ∈ raw := by
    intro k hk
    obtain ⟨kv, hkv, hfst⟩ := List.mem_map.mp (hcov1 k hk)
    exact ⟨kv.2, by rw [← hfst]; exact hkv⟩
  by_cases hzero : ∀ kv ∈ raw, kv.2 = 0
  · have hm0 : maxVal raw = 0 := by
      obtain ⟨kvm, hkvm, hkvmax⟩ := maxVal_mem hrawne
      rw [← hkvmax]
      exact hzero kvm hkvm
    refine ⟨?_, fun _ => ?_, fun hc => absurd hzero hc⟩
    · intro k hk
      obtain ⟨v0, hv0⟩ := hkey k hk
      have hst := hstore k v0 hv0 hk
      have hv00 : v0 = 0 := hzero (k, v0) hv0
      rw [hm0, hv00] at hst
      norm_num at hst
      exact ⟨0, hst, le_refl 0, by norm_num⟩
    · intro k hk
      obtain ⟨v0, hv0⟩ := hkey k hk
      have hst := hstore k v0 hv0 hk
      have hv00 : v0 = 0 := hzero (k, v0) hv0
      rw [hm0, hv00] at hst
      norm_num at hst
      exact hst
  · have hmpos : 0 < maxVal raw := by
      obtain ⟨kvm, hkvm, hkvmax⟩ := maxVal_mem hrawne
      rcases lt_or_eq_of_le (hnn kvm hkvm) with h | h
      · rw [← hkvmax]; exact h
      · by_cases hm : maxVal raw = 0
        · exfalso
          apply hzero
          intro kv hkv
          have h1 := maxVal_ge hkv
          rw [hm] at h1
          exact le_antisymm h1 (hnn kv hkv)
        · rcases lt_or_eq_of_le (le_trans (hnn kvm hkvm) (maxVal_ge hkvm)) with h2 | h2
          · exact h2
          · exact absurd h2.symm hm
    have hmne : ¬ maxVal raw = 0 := ne_of_gt hmpos
    refine ⟨?_, fun hc => absurd hc hzero, fun _ => ?_⟩
    · intro k hk
      obtain ⟨v0, hv0⟩ := hkey k hk
      have hst := hstore k v0 hv0 hk
      rw [if_neg hmne] at hst
      refine ⟨v0 / maxVal raw, hst, div_nonneg (hnn (k, v0) hv0) (le_of_lt hmpos), ?_⟩
      rw [div_le_one hmpos]
      exact maxVal_ge hv0
    · obtain ⟨kvm, hkvm, hkvmax⟩ := maxVal_mem hrawne
      have hkg : kvm.1 ∈ akeys g.nodes :=
        hcov2 kvm.1 (List.mem_map.mpr ⟨kvm, hkvm, rfl⟩)
      refine ⟨kvm.1, hkg, ?_⟩
      have hst := hstore kvm.1 kvm.2 hkvm hkg
      rw [if_neg hmne] at hst
      rw [hst, hkvmax, div_self hmne]

/-- Witness for C2 at a concrete two-node graph with raw degree-centrality
scores (1, 1/2): some node stores influence exactly 1. -/
theorem computeInfluence_normalizes_witness :
    ∃ k ∈ akeys gAB.nodes,
      (alookup (compute_influenceWith gAB [("A", 1), ("B", 1/2)]).nodes k).bind
        (fun a => a.influence) = some 1 := by
  exact (computeInfluence_normalizes gAB [("A", 1), ("B", 1/2)]
    (by decide) (by decide) (by decide) (by decide) (by decide)).2.2 (by decide)

/-! ### Claim C5: renameNode validation, edge rewriting and label update -/

theorem hasNode_true_of_lookup {g : GraphModel} {k : String} {a : NodeAttrs}
    (h : alookup g.nodes k = some a) : hasNode g k = true := by
  unfold hasNode
  rw [h]
  rfl

/-- Claim C5: `renameNode` raises NotFound exactly when the id is absent,
DuplicateId exactly when the new id is taken by a different node, and on
success rewrites the endpoints of every edge (the edge set is the image of
the renaming), makes the old id unresolvable, updates the label only for a
supplied truthy new label, and keeps the derived fields; in the concrete
scenario, renaming A to Z on a graph with edge A→B leaves Z→B present,
A→B absent, and `getNode("A")` not found. -/
theorem renameNode_spec (g : GraphModel) (id newId : String) (newLabel : Option String) :
    (rename_node g id newId newLabel = .error .notFound ↔ hasNode g id = false)
    ∧ (rename_node g id newId newLabel = .error .duplicateId ↔
        hasNode g id = true ∧ newId ≠ id ∧ hasNode g newId = true)
    ∧ (∀ g1, rename_node g id newId newLabel = .ok g1 →
        g1.edges = g.edges.map (fun e =>
          ((if e.1.1 = id then newId else e.1.1,
            if e.1.2 = id then newId else e.1.2), e.2))
        ∧ (newId ≠ id → get_node g1 id = none)
        ∧ (∀ a nd, alookup g.nodes id = some a → a.node = some nd →
            alookup g1.nodes newId = some
              { node := some
                  { nd with
                    id := newId,
                    label := (match newLabel with
                      | none => nd.label
                      | some l => if l = "" then nd.label else l) },
                flatLabel := (match newLabel with
                  | none => a.flatLabel
                  | some l => if l = "" then a.flatLabel else some l),
                influence := a.influence,
                community := a.community }))
    ∧ (∃ gz, rename_node gAB "A" "Z" none = .ok gz
        ∧ (alookup gz.edges ("Z", "B")).isSome = true
        ∧ alookup gz.edges ("A", "B") = none
        ∧ get_node gz "A" = none) := by
  refine ⟨?_, ?_, ?_, ?_⟩
  · unfold rename_node
    cases hl : alookup g.nodes id with
    | none =>
      simp [hasNode, hl]
    | some a =>
      dsimp only
      have hh := hasNode_true_of_lookup hl
      by_cases hdup : newId ≠ id ∧ hasNode g newId = true
      · rw [if_pos hdup]
        simp [hh]
      · rw [if_neg hdup]
        simp [hh]
  · unfold rename_node
    cases hl : alookup g.nodes id with
    | none =>
      have : hasNode g id = false := by unfold hasNode; rw [hl]; rfl
      simp [this]
    | some a =>
      dsimp only
      have hh := hasNode_true_of_lookup hl
      by_cases hdup : newId ≠ id ∧ hasNode g newId = true
      · rw [if_pos hdup]
        simp [hh, hdup.1, hdup.2]
      · rw [if_neg hdup]
        simp only [not_and] at hdup
        constructor
        · intro hcontra
          cases hcontra
        · rintro ⟨_, hne, hhas⟩
          exact absurd hhas (by simpa using hdup hne)
  · intro g1 hok
    unfold rename_node at hok
    cases hl : alookup g.nodes id with
    | none => rw [hl] at hok; cases hok
    | some a =>
      rw [hl] at hok
      dsimp only at hok
      by_cases hdup : newId ≠ id ∧ hasNode g newId = true
      · rw [if_pos hdup] at hok; cases hok
      · rw [if_neg hdup] at hok
        injection hok with hok1
        subst hok1
        refine ⟨rfl, ?_, ?_⟩
        · intro hne
          unfold get_node
          dsimp only
          rw [alookup_append_one, alookup_aremove]
          simp [hne]
        · intro a2 nd hla hnd
          have ha2 : a = a2 := Option.some.inj hla
          subst ha2
          dsimp only
          rw [alookup_append_one]
          by_cases hni : newId = id
          · subst hni
            rw [alookup_aremove]
            simp [hnd]
          · simp only [not_and] at hdup
            have hfree : alookup g.nodes newId = none := by
              have := hdup hni
              unfold hasNode at this
              cases hx : alookup g.nodes newId with
              | none => rfl
              | some w => rw [hx] at this; simp at this
            rw [alookup_aremove]
            simp [hni, hfree, hnd]
  · refine ⟨applyOp gAB (.renameNode "A" "Z" none), by rfl, by decide, by decide, by decide⟩

/-- Witness for C5: the success clause applied at the concrete A→B graph,
renaming A to Z. -/
theorem renameNode_spec_witness :
    get_node (applyOp gAB (.renameNode "A" "Z" none)) "A" = none := by
  have h := (renameNode_spec gAB "A" "Z" none).2.2.1
    (applyOp gAB (.renameNode "A" "Z" none)) (by rfl)
  exact h.2.1 (by decide)

/-! ### Claim C7: upsertNode and the derived analytics fields -/

/-- The node produced by the bare constructor call `Node(id="A")`. -/
def nodeA : Node :=
  { id := "A", label := "A", category := none, valuation := none, role := none,
    company_type := none, logo_url := none, metadata := [] }

/-- Counterexample to claim C7 as stated: upsert node "A", compute influence
(value 1), then upsert "A" again with a payload that does not mention the
derived fields.  The claim says the stored influence is then reset to
absent/default; the code (networkx `add_node` merges the attribute dict)
keeps it at 1. -/
theorem upsertNode_resets_derived_counterexample :
    ((alookup (runOps [.upsertNode "A" none none none none none none none,
        .computeInfluence [("A", 1)],
        .upsertNode "A" none none none none none none none]).nodes "A").bind
      (fun a => a.influence)) = some 1
    ∧ some (1 : ℚ) ≠ (none : Option ℚ) ∧ (1 : ℚ) ≠ 0 := by decide

/-- Amended claim C7: `upsertNode` on an existing id replaces the stored
node object (and its mirrored flat attributes) but PRESERVES the previously
computed derived `influence` and `community` values, because networkx
`add_node` merges the new attributes into the existing attribute dict
rather than replacing it. -/
theorem upsertNode_preserves_derived (g : GraphModel) (n : Node) (a : NodeAttrs)
    (h : alookup g.nodes n.id = some a) :
    alookup (add_or_update_node g n).nodes n.id =
      some { node := some n, flatLabel := some (pyOrStr n.label n.id),
             influence := a.influence, community := a.community } := by
  have hs : hasNode g n.id = true := by
    unfold hasNode
    rw [h]
    rfl
  unfold add_or_update_node
  rw [if_pos hs]
  dsimp only
  rw [alookup_aupdate]
  simp [h]

/-- Witness for the amended C7: re-upserting node "A" after an influence
computation keeps the stored influence value 1. -/
theorem upsertNode_preserves_derived_witness :
    (alookup (add_or_update_node (runOps [.upsertNode "A" none none none none none none none,
      .computeInfluence [("A", 1)]]) nodeA).nodes nodeA.id).bind (fun a => a.influence)
    = some 1 := by
  rw [upsertNode_preserves_derived
    (runOps [.upsertNode "A" none none none none none none none,
      .computeInfluence [("A", 1)]]) nodeA
    { node := some nodeA, flatLabel := some "A", influence := some 1, community := none }
    (by decide)]
  rfl

/-! ### Claim C9: category color assignment -/

/-- Counterexample to claim C9 as stated: the category "AI Labs" contains
the table key "ai lab" case-insensitively, so under the claimed
substring-match semantics it would get that key's color "#a855f7"; the code
does an exact lookup of the lowercased, trimmed category and falls back to
the default color "#38bdf8". -/
theorem categoryColor_substring_counterexample :
    get_category_color (some "AI Labs") = "#38bdf8"
    ∧ List.IsInfix ("ai lab".data) ((pyLower "AI Labs").data)
    ∧ alookup CATEGORY_COLORS "ai lab" = some "#a855f7"
    ∧ ("#38bdf8" : String) ≠ "#a855f7" := by decide

/-- Amended claim C9: `categoryColor` is assigned by case-insensitive EXACT
match — the category is lowercased and trimmed and looked up in the table —
with the fixed default color when the category is missing, empty, or has no
exactly matching key; substring containment does not match. -/
theorem categoryColor_exact_match_only :
    (∀ c, get_category_color (some c) =
        (alookup CATEGORY_COLORS (pyStrip (pyLower c))).getD DEFAULT_NODE_COLOR)
    ∧ (∀ c1 c2, pyStrip (pyLower c1) = pyStrip (pyLower c2) →
        get_category_color (some c1) = get_category_color (some c2))
    ∧ get_category_color none = DEFAULT_NODE_COLOR
    ∧ (∀ c, alookup CATEGORY_COLORS (pyStrip (pyLower c)) = none →
        get_category_color (some c) = DEFAULT_NODE_COLOR) := by
  have key : ∀ c, get_category_color (some c) =
      (alookup CATEGORY_COLORS (pyStrip (pyLower c))).getD DEFAULT_NODE_COLOR := by
    intro c
    unfold get_category_color
    dsimp only
    by_cases hc : c = ""
    · subst hc
      decide
    · rw [if_neg hc]
  refine ⟨key, ?_, rfl, ?_⟩
  · intro c1 c2 h
    rw [key c1, key c2, h]
  · intro c h
    rw [key c, h]
    rfl

/-- Witness for the amended C9: two spellings of "hardware" that agree
after lowercasing and trimming get the same color. -/
theorem categoryColor_exact_match_only_witness :
    get_category_color (some " Hardware ") = get_category_color (some "HARDWARE") := by
  exact categoryColor_exact_match_only.2.1 " Hardware " "HARDWARE" (by decide)

/-! ### Claim C6: upsertEdge auto-creates bare endpoint nodes -/

theorem hasNode_false_lookup {g : GraphModel} {k : String}
    (h : hasNode g k = false) : alookup g.nodes k = none := by
  unfold hasNode at h
  cases hl : alookup g.nodes k with
  | none => rfl
  | some a => rw [hl] at h; simp at h

/-- The bare node the store creates for a missing endpoint string
(`Node(id=source, label=source)` for a trim-clean string). -/
def bareNodeFor (s : String) : Node :=
  { id := s, label := s, category := none, valuation := none, role := none,
    company_type := none, logo_url := none, metadata := [] }

/-- The attribute dict of a freshly auto-created endpoint node. -/
def bareAttrsFor (s : String) : NodeAttrs :=
  { node := some (bareNodeFor s), flatLabel := some s, influence := none,
    community := none }

theorem mkNode_clean {s : String} (hs : pyStrip s = s) (hs2 : s ≠ "") :
    mkNode s (some s) none none none none none none = some (bareNodeFor s) := by
  unfold mkNode bareNodeFor
  rw [hs, if_neg hs2]
  simp [hs2]

/-- The demo scenario of the spec: upsert "OpenAI", then upsert the edge
OpenAI→Nvidia. -/
def demoOps : List Op :=
  [.upsertNode "OpenAI" none none none none none none none,
   .upsertEdge "OpenAI" "Nvidia" "hardware" (85/100) none true]

/-- Claim C6: `upsertEdge` auto-creates a bare node (id = label = the given
string, no other attributes) for each trim-clean endpoint not already in the
graph and then writes the edge; and in the concrete scenario, after
`upsertNode({id:"OpenAI"})` and `upsertEdge("OpenAI","Nvidia","hardware",0.85)`
the summary is (2, 1) and the auto-created node "Nvidia" has label
"Nvidia". -/
theorem upsertEdge_autocreates_bare_nodes :
    (summary (runOps demoOps) = (2, 1)
      ∧ (get_node (runOps demoOps) "Nvidia").map (fun n => n.label) = some "Nvidia")
    ∧ (∀ (g : GraphModel) (s t rel : String) (i : ℚ)
        (m : Option (List (String × String))) (d : Bool),
        pyStrip s = s → s ≠ "" → pyStrip t = t → t ≠ "" → s ≠ t →
        hasNode g s = false → hasNode g t = false →
        (add_or_update_edge g s t rel i m d).2 = true
        ∧ alookup (add_or_update_edge g s t rel i m d).1.nodes s =
            some (bareAttrsFor s)
        ∧ alookup (add_or_update_edge g s t rel i m d).1.nodes t =
            some (bareAttrsFor t)
        ∧ alookup (add_or_update_edge g s t rel i m d).1.edges (s, t) =
            some { relationship_type := pyOrStr rel "unknown",
                   impact := max 0 (min 1 i), directed := d,
                   metadata := m.getD [] }) := by
  constructor
  · constructor
    · decide
    · decide
  · intro g s t rel i m d hs hs2 ht ht2 hst hgs hgt
    have hlgs : alookup g.nodes s = none := hasNode_false_lookup hgs
    have hlgt : alookup g.nodes t = none := hasNode_false_lookup hgt
    have h1 : ensureEndpoint g s =
        some { g with nodes := g.nodes ++ [(s, bareAttrsFor s)] } := by
      unfold ensureEndpoint
      rw [mkNode_clean hs hs2]
      simp only [hgs, Bool.false_eq_true, if_false, Option.map_some']
      unfold add_or_update_node
      have : hasNode g (bareNodeFor s).id = false := hgs
      rw [if_neg (by simp [this])]
      simp [bareAttrsFor, bareNodeFor, pyOrStr, hs2]
    have hl1s : alookup (g.nodes ++ [(s, bareAttrsFor s)]) s =
        some (bareAttrsFor s) := by
      rw [alookup_append_one, hlgs]
      simp
    have hl1t : alookup (g.nodes ++ [(s, bareAttrsFor s)]) t = none := by
      rw [alookup_append_one, hlgt]
      simp [hst]
    have h2 : ensureEndpoint { g with nodes := g.nodes ++ [(s, bareAttrsFor s)] } t =
        some { g with nodes := g.nodes ++ [(s, bareAttrsFor s)] ++ [(t, bareAttrsFor t)] } := by
      unfold ensureEndpoint
      rw [mkNode_clean ht ht2]
      have hht : hasNode { g with nodes := g.nodes ++ [(s, bareAttrsFor s)] } t = false := by
        unfold hasNode
        simp [hl1t]
      simp only [hht, Bool.false_eq_true, if_false, Option.map_some']
      unfold add_or_update_node
      rw [if_neg (by unfold hasNode; simp [bareNodeFor, hl1t])]
      simp [bareAttrsFor, bareNodeFor, pyOrStr, ht2]
    have hl2s : alookup (g.nodes ++ [(s, bareAttrsFor s)] ++ [(t, bareAttrsFor t)]) s =
        some (bareAttrsFor s) := alookup_append_left hl1s
    have hl2t : alookup (g.nodes ++ [(s, bareAttrsFor s)] ++ [(t, bareAttrsFor t)]) t =
        some (bareAttrsFor t) := by
      rw [alookup_append_one, hl1t]
      simp
    have hhs2 : hasNode { g with
        nodes := g.nodes ++ [(s, bareAttrsFor s)] ++ [(t, bareAttrsFor t)] } s = true := by
      unfold hasNode
      dsimp only
      rw [hl2s]
      rfl
    have hht2 : hasNode { g with
        nodes := g.nodes ++ [(s, bareAttrsFor s)] ++ [(t, bareAttrsFor t)] } t = true := by
      unfold hasNode
      dsimp only
      rw [hl2t]
      rfl
    have hrun : add_or_update_edge g s t rel i m d =
        (nxAddEdge { g with nodes := g.nodes ++ [(s, bareAttrsFor s)] ++ [(t, bareAttrsFor t)] }
          s t { relationship_type := pyOrStr rel "unknown", impact := max 0 (min 1 i),
                directed := d, metadata := m.getD [] }, true) := by
      unfold add_or_update_edge
      rw [h1]
      dsimp only
      rw [h2]
    rw [hrun]
    refine ⟨rfl, ?_, ?_, ?_⟩
    · rw [show (nxAddEdge _ s t _, true).1 = nxAddEdge _ s t _ from rfl,
        nxAddEdge_nodes_of_present hhs2 hht2]
      exact hl2s
    · rw [show (nxAddEdge _ s t _, true).1 = nxAddEdge _ s t _ from rfl,
        nxAddEdge_nodes_of_present hhs2 hht2]
      exact hl2t
    · rw [show (nxAddEdge _ s t _, true).1 = nxAddEdge _ s t _ from rfl,
        nxAddEdge_lookup]
      simp

/-- Witness for C6: auto-creation applied at the concrete scenario inputs on
 the empty graph. -/
theorem upsertEdge_autocreates_bare_nodes_witness :
    alookup (add_or_update_edge emptyGraph "OpenAI" "Nvidia" "hardware" (85/100)
      none true).1.nodes "Nvidia" = some (bareAttrsFor "Nvidia") := by
  exact (upsertEdge_autocreates_bare_nodes.2 emptyGraph "OpenAI" "Nvidia" "hardware"
    (85/100) none true (by decide) (by decide) (by decide) (by decide) (by decide)
    (by decide) (by decide)).2.2.1

/-! ### Claim C8: missing or non-numeric impact defaults to 0.5 -/

theorem ensureEndpoint_clean (g : GraphModel) (s : String)
    (hs : pyStrip s = s) (hs2 : s ≠ "") :
    ∃ g1, ensureEndpoint g s = some g1 ∧ g1.edges = g.edges ∧ hasNode g1 s = true := by
  unfold ensureEndpoint
  by_cases h : hasNode g s = true
  · rw [if_pos h]
    exact ⟨g, rfl, rfl, h⟩
  · rw [if_neg h]
    rw [mkNode_clean hs hs2]
    refine ⟨_, rfl, add_or_update_node_edges _ _, ?_⟩
    unfold add_or_update_node
    rw [if_neg (by simp [bareNodeFor]; exact (Bool.not_eq_true _).mp h)]
    unfold hasNode
    dsimp only
    rw [alookup_append_one, hasNode_false_lookup ((Bool.not_eq_true _).mp h)]
    simp [bareNodeFor]

theorem add_or_update_edge_clean (g : GraphModel) (s t rel : String) (i : ℚ)
    (m : Option (List (String × String))) (d : Bool)
    (hs : pyStrip s = s) (hs2 : s ≠ "") (ht : pyStrip t = t) (ht2 : t ≠ "") :
    (add_or_update_edge g s t rel i m d).2 = true
    ∧ alookup (add_or_update_edge g s t rel i m d).1.edges (s, t) =
        some { relationship_type := pyOrStr rel "unknown",
               impact := max 0 (min 1 i), directed := d, metadata := m.getD [] } := by
  obtain ⟨g1, h1, _, _⟩ := ensureEndpoint_clean g s hs hs2
  obtain ⟨g2, h2, _, _⟩ := ensureEndpoint_clean g1 t ht ht2
  have hrun : add_or_update_edge g s t rel i m d =
      (nxAddEdge g2 s t
        { relationship_type := pyOrStr rel "unknown", impact := max 0 (min 1 i),
          directed := d, metadata := m.getD [] }, true) := by
    unfold add_or_update_edge
    rw [h1]
    dsimp only
    rw [h2]
  rw [hrun]
  refine ⟨rfl, ?_⟩
  rw [show (nxAddEdge g2 s t
        { relationship_type := pyOrStr rel "unknown", impact := max 0 (min 1 i),
          directed := d, metadata := m.getD [] }, true).1
      = nxAddEdge g2 s t
        { relationship_type := pyOrStr rel "unknown", impact := max 0 (min 1 i),
          directed := d, metadata := m.getD [] } from rfl,
    nxAddEdge_lookup]
  simp

/-- Claim C8: driving `upsertEdge` with a payload whose impact field is
missing or fails to parse as a number does not fail — the `_safe_float`
defaulting (and, at the validator level, `sanitize_number`) substitutes the
default, and the edge is written with impact 0.5. -/
theorem upsertEdge_invalid_impact_defaults (g : GraphModel) (p : EdgePayload)
    (s t : String)
    (hps : p.source = some s) (hs : pyStrip s = s) (hs2 : s ≠ "")
    (hpt : p.target = some t) (ht : pyStrip t = t) (ht2 : t ≠ "")
    (himp : p.impact = none ∨ p.impact = some PyVal.nonNumeric) :
    (∃ g1, add_or_update_edge_from_payload g p = some g1
      ∧ ∃ e, alookup g1.edges (s, t) = some e ∧ e.impact = 1/2)
    ∧ (∀ d mn mx, sanitize_number PyVal.nonNumeric d mn mx = d)
    ∧ safe_float p.impact (some (1/2)) = some (1/2) := by
  have himp05 : safe_float p.impact (some (1/2 : ℚ)) = some (1/2 : ℚ) := by
    rcases himp with h | h <;> rw [h] <;> rfl
  refine ⟨?_, fun d mn mx => rfl, himp05⟩
  have hclean := add_or_update_edge_clean g s t
    (pyStrip (pyOrStr (p.relationship_type.getD "") "unknown")) (1/2)
    (some (pyOrList (p.metadata.getD []) [])) true hs hs2 ht ht2
  unfold add_or_update_edge_from_payload
  rw [hps, hpt]
  simp only [Option.getD_some, hs, ht]
  rw [if_neg (by simp [hs2, ht2])]
  have himpval : (safe_float p.impact (some 0.5)).getD 0.5 = (1/2 : ℚ) := by
    rcases himp with h | h <;> rw [h] <;> simp [safe_float] <;> norm_num
  rw [himpval]
  cases hrun : add_or_update_edge g s t
      (pyStrip (pyOrStr (p.relationship_type.getD "") "unknown")) (1/2)
      (some (pyOrList (p.metadata.getD []) [])) true with
  | mk g1 ok =>
    rw [hrun] at hclean
    cases ok with
    | false => simp at hclean
    | true =>
      refine ⟨g1, rfl, ?_⟩
      refine ⟨_, hclean.2, ?_⟩
      have : max 0 (min 1 (1/2 : ℚ)) = 1/2 := by norm_num
      rw [this]

/-! ### Claim C1: serialization round trip

The invariant `GoodGraph` holds for every graph reachable through
trim-clean operations; under it the round trip is computed exactly. -/

/-- Well-formedness of a graph state reached through trim-clean public
operations: unique keys, trimmed non-empty node keys, a stored node object
whose id matches its key and whose label is non-empty (with the flat label
attribute in sync), and edges with existing endpoints, non-empty
relationship type and clamped impact. -/
structure GoodGraph (g : GraphModel) : Prop where
  nodesNodup : (akeys g.nodes).Nodup
  edgesNodup : (akeys g.edges).Nodup
  keysClean : ∀ k ∈ akeys g.nodes, pyStrip k = k ∧ k ≠ ""
  nodeObj : ∀ kv ∈ g.nodes, ∃ nd, kv.2.node = some nd ∧ nd.id = kv.1
      ∧ nd.label ≠ "" ∧ kv.2.flatLabel = some nd.label
  edgeEnds : ∀ pe ∈ g.edges, pe.1.1 ∈ akeys g.nodes ∧ pe.1.2 ∈ akeys g.nodes
  edgeRel : ∀ pe ∈ g.edges, pe.2.relationship_type ≠ ""
  edgeImp : ∀ pe ∈ g.edges, 0 ≤ pe.2.impact ∧ pe.2.impact ≤ 1

theorem graphModel_eq {g1 g2 : GraphModel} (h1 : g1.nodes = g2.nodes)
    (h2 : g1.edges = g2.edges) : g1 = g2 := by
  cases g1
  cases g2
  cases h1
  cases h2
  rfl

theorem mkNode_spec {id : String} {label category : Option String} {valuation : Option ℚ}
    {role company_type logo_url : Option String}
    {metadata : Option (List (String × String))} {n : Node}
    (h : mkNode id label category valuation role company_type logo_url metadata = some n) :
    n.id = pyStrip id ∧ pyStrip id ≠ "" ∧ n.label ≠ "" := by
  unfold mkNode at h
  by_cases hid : pyStrip id = ""
  · rw [if_pos hid] at h
    cases h
  · rw [if_neg hid] at h
    injection h with h1
    subst h1
    refine ⟨rfl, hid, ?_⟩
    dsimp only
    cases label with
    | none => exact hid
    | some l => by_cases hl : l = "" <;> simp [hl, hid]

theorem good_add_node {g : GraphModel} {n : Node} (hg : GoodGraph g)
    (hclean : pyStrip n.id = n.id) (hne : n.id ≠ "") (hlab : n.label ≠ "") :
    GoodGraph (add_or_update_node g n) := by
  have hflat : pyOrStr n.label n.id = n.label := by
    unfold pyOrStr
    rw [if_neg hlab]
  unfold add_or_update_node
  by_cases h : hasNode g n.id = true
  · rw [if_pos h]
    refine ⟨?_, ?_, ?_, ?_, ?_, ?_, ?_⟩ <;> dsimp only
    · rw [akeys_aupdate]
      exact hg.nodesNodup
    · exact hg.edgesNodup
    · intro k hk
      rw [akeys_aupdate] at hk
      exact hg.keysClean k hk
    · intro kv hkv
      obtain ⟨kw, hkw, hkveq⟩ := mem_aupdate hkv
      subst hkveq
      by_cases hq : kw.1 = n.id
      · refine ⟨n, ?_, ?_, hlab, ?_⟩ <;> simp [hq, hflat]
      · simpa [hq] using hg.nodeObj kw hkw
    · intro pe hpe
      rw [akeys_aupdate]
      exact hg.edgeEnds pe hpe
    · exact hg.edgeRel
    · exact hg.edgeImp
  · rw [if_neg h]
    have hnotin : n.id ∉ akeys g.nodes := by
      intro hc
      exact h (alookup_isSome_iff.mpr hc)
    refine ⟨?_, ?_, ?_, ?_, ?_, ?_, ?_⟩ <;> dsimp only
    · rw [akeys_append]
      rw [List.nodup_append]
      refine ⟨hg.nodesNodup, List.nodup_singleton _, ?_⟩
      intro x hx hx2
      simp only [akeys, List.map_cons, List.map_nil, List.mem_singleton] at hx2
      subst hx2
      exact hnotin hx
    · exact hg.edgesNodup
    · intro k hk
      rw [akeys_append] at hk
      rcases List.mem_append.mp hk with hk | hk
      · exact hg.keysClean k hk
      · simp only [akeys, List.map_cons, List.map_nil, List.mem_singleton] at hk
        subst hk
        exact ⟨hclean, hne⟩
    · intro kv hkv
      rcases List.mem_append.mp hkv with hkv | hkv
      · exact hg.nodeObj kv hkv
      · simp only [List.mem_singleton] at hkv
        subst hkv
        exact ⟨n, rfl, rfl, hlab, by simp [hflat]⟩
    · intro pe hpe
      rw [akeys_append]
      have := hg.edgeEnds pe hpe
      exact ⟨List.mem_append_left _ this.1, List.mem_append_left _ this.2⟩
    · exact hg.edgeRel
    · exact hg.edgeImp

theorem ensureEndpoint_good {g : GraphModel} {s : String} (hg : GoodGraph g)
    (hs : pyStrip s = s) (hs2 : s ≠ "") :
    ∃ g1, ensureEndpoint g s = some g1 ∧ GoodGraph g1 ∧ hasNode g1 s = true
      ∧ g1.edges = g.edges
      ∧ (∀ k, hasNode g k = true → hasNode g1 k = true) := by
  unfold ensureEndpoint
  by_cases h : hasNode g s = true
  · rw [if_pos h]
    exact ⟨g, rfl, hg, h, rfl, fun _ hk => hk⟩
  · rw [if_neg h]
    rw [mkNode_clean hs hs2]
    refine ⟨_, rfl, ?_, ?_, add_or_update_node_edges _ _, ?_⟩
    · exact good_add_node hg (by simpa [bareNodeFor] using hs)
        (by simpa [bareNodeFor] using hs2) (by simpa [bareNodeFor] using hs2)
    · unfold add_or_update_node
      rw [if_neg (by simpa [bareNodeFor] using h)]
      unfold hasNode
      dsimp only
      rw [alookup_append_one, hasNode_false_lookup ((Bool.not_eq_true _).mp h)]
      simp [bareNodeFor]
    · intro k hk
      unfold add_or_update_node
      rw [if_neg (by simpa [bareNodeFor] using h)]
      unfold hasNode at hk ⊢
      dsimp only
      rw [alookup_append_one]
      cases halk : alookup g.nodes k with
      | none => rw [halk] at hk; simp at hk
      | some a => rfl

theorem good_nxAddEdge {g : GraphModel} {s t : String} {e : EdgeData}
    (hg : GoodGraph g) (hhs : hasNode g s = true) (hht : hasNode g t = true)
    (hrel : e.relationship_type ≠ "") (himp : 0 ≤ e.impact ∧ e.impact ≤ 1) :
    GoodGraph (nxAddEdge g s t e) := by
  have hnodes := nxAddEdge_nodes_of_present (e := e) hhs hht
  have hedges := nxAddEdge_edges_eq g s t e
  have hsk : s ∈ akeys g.nodes := alookup_isSome_iff.mp hhs
  have htk : t ∈ akeys g.nodes := alookup_isSome_iff.mp hht
  refine ⟨?_, ?_, ?_, ?_, ?_, ?_, ?_⟩
  · rw [hnodes]; exact hg.nodesNodup
  · rw [hedges]
    split
    · rw [akeys_aupdate]; exact hg.edgesNodup
    · rename_i hnone
      have : (s, t) ∉ akeys g.edges := by
        intro hc
        exact hnone (alookup_isSome_iff.mpr hc)
      rw [akeys_append, List.nodup_append]
      refine ⟨hg.edgesNodup, List.nodup_singleton _, ?_⟩
      intro x hx hx2
      simp only [akeys, List.map_cons, List.map_nil, List.mem_singleton] at hx2
      subst hx2
      exact this hx
  · intro k hk
    rw [hnodes] at hk
    exact hg.keysClean k hk
  · intro kv hkv
    rw [hnodes] at hkv
    exact hg.nodeObj kv hkv
  · intro pe hpe
    rw [hnodes]
    rw [hedges] at hpe
    split at hpe
    · obtain ⟨kw, hkw, hkveq⟩ := mem_aupdate hpe
      subst hkveq
      exact hg.edgeEnds kw hkw
    · rcases List.mem_append.mp hpe with hold | hnew
      · exact hg.edgeEnds pe hold
      · simp only [List.mem_singleton] at hnew
        subst hnew
        exact ⟨hsk, htk⟩
  · intro pe hpe
    rw [hedges] at hpe
    split at hpe
    · obtain ⟨kw, hkw, hkveq⟩ := mem_aupdate hpe
      subst hkveq
      by_cases hq : kw.1 = (s, t)
      · simpa [hq] using hrel
      · simpa [hq] using hg.edgeRel kw hkw
    · rcases List.mem_append.mp hpe with hold | hnew
      · exact hg.edgeRel pe hold
      · simp only [List.mem_singleton] at hnew
        subst hnew
        exact hrel
  · intro pe hpe
    rw [hedges] at hpe
    split at hpe
    · obtain ⟨kw, hkw, hkveq⟩ := mem_aupdate hpe
      subst hkveq
      by_cases hq : kw.1 = (s, t)
      · simpa [hq] using himp
      · simpa [hq] using hg.edgeImp kw hkw
    · rcases List.mem_append.mp hpe with hold | hnew
      · exact hg.edgeImp pe hold
      · simp only [List.mem_singleton] at hnew
        subst hnew
        exact himp

theorem good_deleteNode {g : GraphModel} {k : String} (hg : GoodGraph g) :
    GoodGraph (delete_node g k).1 := by
  unfold delete_node
  by_cases h : hasNode g k = true
  · rw [if_pos h]
    refine ⟨?_, ?_, ?_, ?_, ?_, ?_, ?_⟩ <;> dsimp only
    · exact nodup_akeys_aremove hg.nodesNodup
    · exact hg.edgesNodup.sublist ((List.filter_sublist _).map _)
    · intro k2 hk2
      exact hg.keysClean k2 (mem_akeys_aremove.mp hk2).1
    · intro kv hkv
      exact hg.nodeObj kv (mem_aremove hkv).1
    · intro pe hpe
      have h1 := List.mem_of_mem_filter hpe
      have h2 := List.of_mem_filter hpe
      have hends := hg.edgeEnds pe h1
      have h2b : pe.1.1 ≠ k ∧ pe.1.2 ≠ k := by simpa using h2
      exact ⟨mem_akeys_aremove.mpr ⟨hends.1, h2b.1⟩,
        mem_akeys_aremove.mpr ⟨hends.2, h2b.2⟩⟩
    · intro pe hpe
      exact hg.edgeRel pe (List.mem_of_mem_filter hpe)
    · intro pe hpe
      exact hg.edgeImp pe (List.mem_of_mem_filter hpe)
  · rw [if_neg h]
    exact hg

theorem good_aremove_edges {g : GraphModel} {p : String × String} (hg : GoodGraph g) :
    GoodGraph { g with edges := aremove g.edges p } := by
  refine ⟨?_, ?_, ?_, ?_, ?_, ?_, ?_⟩ <;> dsimp only
  · exact hg.nodesNodup
  · exact nodup_akeys_aremove hg.edgesNodup
  · exact hg.keysClean
  · exact hg.nodeObj
  · intro pe hpe
    exact hg.edgeEnds pe (mem_aremove hpe).1
  · intro pe hpe
    exact hg.edgeRel pe (mem_aremove hpe).1
  · intro pe hpe
    exact hg.edgeImp pe (mem_aremove hpe).1

theorem good_deleteEdge {g : GraphModel} {s t : String} {r : Option String}
    (hg : GoodGraph g) : GoodGraph (delete_edge g s t r).1 := by
  cases he : alookup g.edges (s, t) with
  | none =>
    have heq : (delete_edge g s t r).1 = g := by simp [delete_edge, he]
    rw [heq]
    exact hg
  | some e =>
    cases r with
    | none =>
      have heq : (delete_edge g s t none).1 = { g with edges := aremove g.edges (s, t) } := by
        simp [delete_edge, he]
      rw [heq]
      exact good_aremove_edges hg
    | some rt =>
      by_cases hrt : e.relationship_type = rt
      · have heq : (delete_edge g s t (some rt)).1 =
            { g with edges := aremove g.edges (s, t) } := by
          simp [delete_edge, he, hrt]
        rw [heq]
        exact good_aremove_edges hg
      · have heq : (delete_edge g s t (some rt)).1 = g := by
          simp [delete_edge, he, hrt]
        rw [heq]
        exact hg

theorem good_aupdate_nodes {g : GraphModel} {q : String} {f : NodeAttrs → NodeAttrs}
    (hf : ∀ a, (f a).node = a.node ∧ (f a).flatLabel = a.flatLabel)
    (hg : GoodGraph g) : GoodGraph { g with nodes := aupdate g.nodes q f } := by
  refine ⟨?_, ?_, ?_, ?_, ?_, ?_, ?_⟩ <;> dsimp only
  · rw [akeys_aupdate]
    exact hg.nodesNodup
  · exact hg.edgesNodup
  · intro k hk
    rw [akeys_aupdate] at hk
    exact hg.keysClean k hk
  · intro kv hkv
    obtain ⟨kw, hkw, hkveq⟩ := mem_aupdate hkv
    subst hkveq
    obtain ⟨nd, h1, h2, h3, h4⟩ := hg.nodeObj kw hkw
    by_cases hq : kw.1 = q
    · exact ⟨nd, by simp [hq, (hf kw.2).1, h1], by simpa using h2, h3,
        by simp [hq, (hf kw.2).2, h4]⟩
    · exact ⟨nd, by simp [hq, h1], h2, h3, by simp [hq, h4]⟩
  · intro pe hpe
    rw [akeys_aupdate]
    exact hg.edgeEnds pe hpe
  · exact hg.edgeRel
  · exact hg.edgeImp

theorem good_foldInfl (scores : List (String × ℚ)) {g : GraphModel}
    (hg : GoodGraph g) : GoodGraph (scores.foldl inflStep g) := by
  induction scores generalizing g with
  | nil => exact hg
  | cons kv t ih =>
    simp only [List.foldl_cons]
    apply ih
    unfold inflStep
    split
    · exact good_aupdate_nodes (fun a => ⟨rfl, rfl⟩) hg
    · exact hg

theorem good_foldComm (scores : List (String × Int)) {g : GraphModel}
    (hg : GoodGraph g) : GoodGraph (scores.foldl commStep g) := by
  induction scores generalizing g with
  | nil => exact hg
  | cons kv t ih =>
    simp only [List.foldl_cons]
    apply ih
    unfold commStep
    split
    · exact good_aupdate_nodes (fun a => ⟨rfl, rfl⟩) hg
    · exact hg

theorem good_renameNode {g : GraphModel} {k k2 : String} {l : Option String}
    (hg : GoodGraph g) (h2c : pyStrip k2 = k2) (h2n : k2 ≠ "") :
    GoodGraph (applyOp g (.renameNode k k2 l)) := by
  simp only [applyOp]
  cases hr : rename_node g k k2 l with
  | error e => exact hg
  | ok g1 =>
    dsimp only
    unfold rename_node at hr
    cases hl : alookup g.nodes k with
    | none => rw [hl] at hr; cases hr
    | some a =>
      rw [hl] at hr
      dsimp only at hr
      by_cases hdup : k2 ≠ k ∧ hasNode g k2 = true
      · rw [if_pos hdup] at hr
        cases hr
      · rw [if_neg hdup] at hr
        injection hr with hr1
        subst hr1
        have hmemk : (k, a) ∈ g.nodes := alookup_mem hl
        obtain ⟨nd, hnd1, hnd2, hnd3, hnd4⟩ := hg.nodeObj (k, a) hmemk
        have hk2notin : k2 ∉ akeys (aremove g.nodes k) := by
          intro hc
          obtain ⟨hin, hne⟩ := mem_akeys_aremove.mp hc
          by_cases hk2k : k2 = k
          · exact hne hk2k
          · exact hdup ⟨hk2k, alookup_isSome_iff.mpr hin⟩
        have hreninj : ∀ x ∈ akeys g.nodes, ∀ y ∈ akeys g.nodes,
            (if x = k then k2 else x) = (if y = k then k2 else y) → x = y := by
          intro x hx y hy hxy
          by_cases hxk : x = k <;> by_cases hyk : y = k
          · rw [hxk, hyk]
          · rw [if_pos hxk, if_neg hyk] at hxy
            exfalso
            by_cases hk2k : k2 = k
            · exact hyk (hxy.symm.trans hk2k)
            · exact hdup ⟨hk2k, alookup_isSome_iff.mpr (hxy ▸ hy)⟩
          · rw [if_neg hxk, if_pos hyk] at hxy
            exfalso
            by_cases hk2k : k2 = k
            · exact hxk (hxy.trans hk2k)
            · exact hdup ⟨hk2k, alookup_isSome_iff.mpr (hxy ▸ hx)⟩
          · rw [if_neg hxk, if_neg hyk] at hxy
            exact hxy
        have hmemren : ∀ x, x ∈ akeys g.nodes → x ≠ k →
            x ∈ akeys (aremove g.nodes k) ++ [k2] :=
          fun x hx hxk => List.mem_append_left _ (mem_akeys_aremove.mpr ⟨hx, hxk⟩)
        refine ⟨?_, ?_, ?_, ?_, ?_, ?_, ?_⟩ <;> dsimp only
        · rw [akeys_append, List.nodup_append]
          refine ⟨nodup_akeys_aremove hg.nodesNodup, List.nodup_singleton _, ?_⟩
          intro x hx hx2
          simp only [akeys, List.map_cons, List.map_nil, List.mem_singleton] at hx2
          subst hx2
          exact hk2notin hx
        · have hekeys : akeys (List.map (fun e =>
              ((if e.1.1 = k then k2 else e.1.1, if e.1.2 = k then k2 else e.1.2), e.2))
              g.edges)
              = (akeys g.edges).map (fun p =>
                  (if p.1 = k then k2 else p.1, if p.2 = k then k2 else p.2)) := by
            simp [akeys, List.map_map, Function.comp]
          rw [hekeys]
          apply hg.edgesNodup.map_on
          intro p hp q hq hpq
          obtain ⟨pe, hpe, hpe2⟩ := List.mem_map.mp hp
          obtain ⟨qe, hqe, hqe2⟩ := List.mem_map.mp hq
          have hpends := hg.edgeEnds pe hpe
          have hqends := hg.edgeEnds qe hqe
          rw [Prod.mk.injEq] at hpq
          have e1 := hreninj p.1 (hpe2 ▸ hpends.1) q.1 (hqe2 ▸ hqends.1) hpq.1
          have e2 := hreninj p.2 (hpe2 ▸ hpends.2) q.2 (hqe2 ▸ hqends.2) hpq.2
          exact Prod.ext e1 e2
        · intro x hx
          rw [akeys_append] at hx
          rcases List.mem_append.mp hx with hx | hx
          · exact hg.keysClean x (mem_akeys_aremove.mp hx).1
          · simp only [akeys, List.map_cons, List.map_nil, List.mem_singleton] at hx
            subst hx
            exact ⟨h2c, h2n⟩
        · intro kv hkv
          rcases List.mem_append.mp hkv with hkv | hkv
          · exact hg.nodeObj kv (mem_aremove hkv).1
          · simp only [List.mem_singleton] at hkv
            subst hkv
            dsimp only
            rw [hnd1]
            refine ⟨_, rfl, rfl, ?_, ?_⟩
            · dsimp only
              cases l with
              | none => exact hnd3
              | some s => by_cases hsl : s = "" <;> simp [hsl, hnd3]
            · dsimp only
              cases l with
              | none => simpa using hnd4
              | some s =>
                by_cases hsl : s = ""
                · simpa [hsl] using hnd4
                · simp [hsl]
        · intro pe hpe
          obtain ⟨pe0, hpe0, hpeeq⟩ := List.mem_map.mp hpe
          subst hpeeq
          have hends := hg.edgeEnds pe0 hpe0
          rw [akeys_append]
          constructor
          · dsimp only
            by_cases hx : pe0.1.1 = k
            · rw [if_pos hx]
              exact List.mem_append_right _ (by simp [akeys])
            · rw [if_neg hx]
              exact hmemren _ hends.1 hx
          · dsimp only
            by_cases hx : pe0.1.2 = k
            · rw [if_pos hx]
              exact List.mem_append_right _ (by simp [akeys])
            · rw [if_neg hx]
              exact hmemren _ hends.2 hx
        · intro pe hpe
          obtain ⟨pe0, hpe0, hpeeq⟩ := List.mem_map.mp hpe
          subst hpeeq
          exact hg.edgeRel pe0 hpe0
        · intro pe hpe
          obtain ⟨pe0, hpe0, hpeeq⟩ := List.mem_map.mp hpe
          subst hpeeq
          exact hg.edgeImp pe0 hpe0

theorem good_applyOp {g : GraphModel} {op : Op} (hg : GoodGraph g)
    (hop : op.goodb = true) : GoodGraph (applyOp g op) := by
  cases op with
  | upsertNode id label category valuation role company_type logo_url metadata =>
    simp only [applyOp]
    have hid : pyStrip id = id := by simpa [Op.goodb] using hop
    cases hmk : mkNode id label category valuation role company_type logo_url metadata with
    | none => exact hg
    | some n =>
      obtain ⟨h1, h2, h3⟩ := mkNode_spec hmk
      have hidn : n.id = id := by rw [h1, hid]
      exact good_add_node hg (by rw [hidn, hid]) (by rw [hidn]; rw [hid] at h2; exact h2) h3
  | upsertEdge s t rel i m d =>
    have hb : pyStrip s = s ∧ s ≠ "" ∧ pyStrip t = t ∧ t ≠ "" := by
      simp only [Op.goodb, Bool.and_eq_true, decide_eq_true_eq] at hop
      exact ⟨hop.1.1.1, hop.1.1.2, hop.1.2, hop.2⟩
    obtain ⟨g1, h1, hg1, hh1s, _, hmono1⟩ := ensureEndpoint_good hg hb.1 hb.2.1
    obtain ⟨g2, h2, hg2, hh2t, _, hmono2⟩ := ensureEndpoint_good hg1 hb.2.2.1 hb.2.2.2
    simp only [applyOp]
    unfold add_or_update_edge
    rw [h1]
    dsimp only
    rw [h2]
    dsimp only
    exact good_nxAddEdge hg2 (hmono2 s hh1s) hh2t
      (pyOrStr_ne_empty (by decide)) (clamp_bounds i)
  | deleteNode k => exact good_deleteNode hg
  | deleteEdge s t r => exact good_deleteEdge hg
  | renameNode k k2 l =>
    have hb : pyStrip k2 = k2 ∧ k2 ≠ "" := by
      simp only [Op.goodb, Bool.and_eq_true, decide_eq_true_eq] at hop
      exact hop
    exact good_renameNode hg hb.1 hb.2
  | computeInfluence raw =>
    simp only [applyOp, compute_influenceWith]
    split
    · exact hg
    · exact good_foldInfl _ hg
  | computeCommunities raw =>
    simp only [applyOp, compute_communitiesWith]
    split
    · exact hg
    · exact good_foldComm _ hg

theorem good_emptyGraph : GoodGraph emptyGraph := by
  refine ⟨?_, ?_, ?_, ?_, ?_, ?_, ?_⟩ <;> simp [emptyGraph, akeys]

theorem good_runOps (ops : List Op) (hops : ∀ op ∈ ops, op.goodb = true) :
    GoodGraph (runOps ops) := by
  have hgen : ∀ (l : List Op) (g : GraphModel), GoodGraph g →
      (∀ op ∈ l, op.goodb = true) → GoodGraph (l.foldl applyOp g) := by
    intro l
    induction l with
    | nil => intro g hgg _; exact hgg
    | cons op t ih =>
      intro g hgg hl
      exact ih _ (good_applyOp hgg (hl op (List.mem_cons_self _ _)))
        (fun o ho => hl o (List.mem_cons_of_mem _ ho))
  exact hgen ops emptyGraph good_emptyGraph hops

/-- The attribute transformation the round trip applies to every node:
the analytics keys become present, with their read defaults. -/
def rtAttrs (a : NodeAttrs) : NodeAttrs :=
  { a with influence := some (a.influence.getD 0),
           community := some (a.community.getD none) }

theorem from_dict_nodeDoc {k : String} {a : NodeAttrs} {nd : Node}
    (hnode : a.node = some nd) (hid : nd.id = k) (hk : pyStrip k = k)
    (hkne : k ≠ "") (hlab : nd.label ≠ "") :
    Node.from_dict (nodeDocOf k a) = some nd := by
  unfold nodeDocOf
  rw [hnode]
  dsimp only
  unfold Node.from_dict Node.to_dict
  dsimp only
  unfold mkNode
  rw [hid, hk, if_neg hkne]
  rw [show pyOrStr nd.label k = nd.label from by unfold pyOrStr; rw [if_neg hlab]]
  simp only [Option.getD_some, pyOrList_nil, Option.some.injEq]
  rw [if_neg hlab, ← hid]

theorem someBind {α β : Type} (x : α) (f : α → Option β) : (some x >>= f) = f x := rfl

theorem fromJsonNodeStep_fresh {acc : GraphModel} {k : String} {a : NodeAttrs}
    {nd : Node} (hnode : a.node = some nd) (hid : nd.id = k) (hk : pyStrip k = k)
    (hkne : k ≠ "") (hlab : nd.label ≠ "") (hflat : a.flatLabel = some nd.label)
    (hfresh : k ∉ akeys acc.nodes) :
    fromJsonNodeStep acc (nodeDocOf k a)
      = some { acc with nodes := acc.nodes ++ [(k, rtAttrs a)] } := by
  have hnof : hasNode acc nd.id = false := by
    rw [hid]
    unfold hasNode
    rw [alookup_eq_none.mpr hfresh]
    rfl
  have hflatval : pyOrStr nd.label nd.id = nd.label := by
    unfold pyOrStr
    rw [if_neg hlab]
  have hadd : add_or_update_node acc nd =
      { acc with nodes := acc.nodes ++
          [(k, { node := some nd, flatLabel := some nd.label,
                 influence := none, community := none })] } := by
    unfold add_or_update_node
    rw [if_neg (by rw [hnof]; exact fun hc => Bool.noConfusion hc), hflatval, hid]
  have hinfl : (nodeDocOf k a).influence = some (a.influence.getD 0) := by
    simp [nodeDocOf]
  have hcomm : (nodeDocOf k a).community = some (a.community.getD none) := by
    simp [nodeDocOf]
  have hrt : rtAttrs a =
      { node := some nd, flatLabel := some nd.label,
        influence := some (a.influence.getD 0),
        community := some (a.community.getD none) } := by
    unfold rtAttrs
    rw [hnode, hflat]
  unfold fromJsonNodeStep
  rw [from_dict_nodeDoc hnode hid hk hkne hlab]
  rw [Option.map_some']
  rw [hinfl, hcomm]
  dsimp only
  rw [hadd]
  dsimp only
  rw [hid]
  rw [aupdate_append_right hfresh]
  rw [aupdate_append_right hfresh]
  rw [hrt]

/-- Replaying the node documents of a well-formed node list extends the
accumulator with exactly the transformed entries, in order. -/
theorem replayNodes (l : List (String × NodeAttrs)) (acc : GraphModel)
    (hdisj : ∀ x ∈ akeys l, x ∉ akeys acc.nodes)
    (hnd : (akeys l).Nodup)
    (hclean : ∀ kv ∈ l, pyStrip kv.1 = kv.1 ∧ kv.1 ≠ "")
    (hobj : ∀ kv ∈ l, ∃ nd, kv.2.node = some nd ∧ nd.id = kv.1 ∧ nd.label ≠ ""
        ∧ kv.2.flatLabel = some nd.label) :
    List.foldlM fromJsonNodeStep acc (l.map fun kv => nodeDocOf kv.1 kv.2)
      = some { acc with nodes := acc.nodes ++ l.map (fun kv => (kv.1, rtAttrs kv.2)) } := by
  induction l generalizing acc with
  | nil => simp
  | cons kv t ih =>
    obtain ⟨k, a⟩ := kv
    obtain ⟨nd, hnode, hid, hlab, hflat⟩ := hobj (k, a) (List.mem_cons_self _ _)
    obtain ⟨hkc, hkn⟩ := hclean (k, a) (List.mem_cons_self _ _)
    have hfreshk : k ∉ akeys acc.nodes := hdisj k (List.mem_cons_self _ _)
    have hnd2 : (k :: akeys t).Nodup := hnd
    obtain ⟨hknotint, hndt⟩ := List.nodup_cons.mp hnd2
    simp only [List.map_cons, List.foldlM_cons]
    rw [fromJsonNodeStep_fresh hnode hid hkc hkn hlab hflat hfreshk]
    rw [someBind]
    rw [ih _ ?_ hndt
      (fun kw hkw => hclean kw (List.mem_cons_of_mem _ hkw))
      (fun kw hkw => hobj kw (List.mem_cons_of_mem _ hkw))]
    · simp
    · intro x hx
      rw [akeys_append]
      intro hc
      rcases List.mem_append.mp hc with hc | hc
      · exact hdisj x (List.mem_cons_of_mem _ hx) hc
      · simp only [akeys, List.map_cons, List.map_nil, List.mem_singleton] at hc
        subst hc
        exact hknotint hx

theorem fromJsonEdgeStep_fresh {acc : GraphModel} {s t : String} {e : EdgeData}
    (hhs : hasNode acc s = true) (hht : hasNode acc t = true)
    (hfresh : alookup acc.edges (s, t) = none)
    (hrel : e.relationship_type ≠ "") (himp : 0 ≤ e.impact ∧ e.impact ≤ 1) :
    fromJsonEdgeStep acc (edgeDocOf ((s, t), e))
      = some { acc with edges := acc.edges ++ [((s, t), e)] } := by
  have he2 : EdgeData.mk (pyOrStr e.relationship_type "unknown")
      (max 0 (min 1 e.impact)) e.directed ((some e.metadata).getD []) = e := by
    have h1 : pyOrStr e.relationship_type "unknown" = e.relationship_type := by
      unfold pyOrStr
      rw [if_neg hrel]
    rw [h1, clamp_id himp.1 himp.2]
    rfl
  have hnx : nxAddEdge acc s t e = { acc with edges := acc.edges ++ [((s, t), e)] } := by
    apply graphModel_eq
    · exact nxAddEdge_nodes_of_present hhs hht
    · rw [nxAddEdge_edges_eq, hfresh]
      rfl
  unfold fromJsonEdgeStep edgeDocOf
  dsimp only
  unfold add_or_update_edge
  rw [show ensureEndpoint acc s = some acc from by unfold ensureEndpoint; rw [if_pos hhs]]
  dsimp only
  rw [show ensureEndpoint acc t = some acc from by unfold ensureEndpoint; rw [if_pos hht]]
  dsimp only
  rw [he2, hnx]

/-- Replaying the edge documents of a well-formed edge list appends exactly
those edges to the accumulator. -/
theorem replayEdges (el : List ((String × String) × EdgeData)) (acc : GraphModel)
    (hends : ∀ pe ∈ el, hasNode acc pe.1.1 = true ∧ hasNode acc pe.1.2 = true)
    (hfresh : ∀ pe ∈ el, alookup acc.edges pe.1 = none)
    (hnd : (akeys el).Nodup)
    (hrel : ∀ pe ∈ el, pe.2.relationship_type ≠ "")
    (himp : ∀ pe ∈ el, 0 ≤ pe.2.impact ∧ pe.2.impact ≤ 1) :
    List.foldlM fromJsonEdgeStep acc (el.map edgeDocOf)
      = some { acc with edges := acc.edges ++ el } := by
  induction el generalizing acc with
  | nil => simp
  | cons pe t ih =>
    obtain ⟨⟨s, u⟩, e⟩ := pe
    have hnd2 : ((s, u) :: akeys t).Nodup := hnd
    obtain ⟨hknotint, hndt⟩ := List.nodup_cons.mp hnd2
    simp only [List.map_cons, List.foldlM_cons]
    rw [fromJsonEdgeStep_fresh (hends _ (List.mem_cons_self _ _)).1
      (hends _ (List.mem_cons_self _ _)).2 (hfresh _ (List.mem_cons_self _ _))
      (hrel _ (List.mem_cons_self _ _)) (himp _ (List.mem_cons_self _ _))]
    rw [someBind]
    rw [ih _ ?_ ?_ hndt
      (fun pw hpw => hrel pw (List.mem_cons_of_mem _ hpw))
      (fun pw hpw => himp pw (List.mem_cons_of_mem _ hpw))]
    · simp
    · intro pw hpw
      exact hends pw (List.mem_cons_of_mem _ hpw)
    · intro pw hpw
      dsimp only
      rw [alookup_append_one, hfresh pw (List.mem_cons_of_mem _ hpw)]
      have : ¬ (s, u) = pw.1 := by
        intro hc
        apply hknotint
        rw [hc]
        exact List.mem_map.mpr ⟨pw, hpw, rfl⟩
      simp [this]

/-- Under the reachable-state invariant the round trip computes exactly:
the node dictionary is transformed entrywise by `rtAttrs` and the edge
dictionary is reproduced unchanged. -/
theorem roundtrip_good {g : GraphModel} (hg : GoodGraph g) :
    from_json (to_json g)
      = some { g with nodes := g.nodes.map (fun kv => (kv.1, rtAttrs kv.2)) } := by
  have hRN := replayNodes g.nodes emptyGraph
    (by intro x hx; simp [emptyGraph, akeys]) hg.nodesNodup
    (fun kv hkv => hg.keysClean kv.1 (List.mem_map.mpr ⟨kv, hkv, rfl⟩))
    hg.nodeObj
  have hkeysN : akeys (emptyGraph.nodes ++ g.nodes.map (fun kv => (kv.1, rtAttrs kv.2)))
      = akeys g.nodes := by
    rw [akeys_append, akeys_mapVal]
    simp [emptyGraph, akeys]
  unfold from_json to_json
  dsimp only
  rw [hRN, Option.some_bind]
  rw [replayEdges g.edges _ ?_ ?_ hg.edgesNodup hg.edgeRel hg.edgeImp]
  · apply congrArg
    apply graphModel_eq
    · dsimp only
      simp [emptyGraph]
    · dsimp only
      simp [emptyGraph]
  · intro pe hpe
    have hends := hg.edgeEnds pe hpe
    constructor
    · exact alookup_isSome_iff.mpr (by rw [show ({ emptyGraph with
        nodes := emptyGraph.nodes ++ g.nodes.map (fun kv => (kv.1, rtAttrs kv.2)) } :
          GraphModel).nodes = emptyGraph.nodes ++ g.nodes.map
            (fun kv => (kv.1, rtAttrs kv.2)) from rfl, hkeysN]; exact hends.1)
    · exact alookup_isSome_iff.mpr (by rw [show ({ emptyGraph with
        nodes := emptyGraph.nodes ++ g.nodes.map (fun kv => (kv.1, rtAttrs kv.2)) } :
          GraphModel).nodes = emptyGraph.nodes ++ g.nodes.map
            (fun kv => (kv.1, rtAttrs kv.2)) from rfl, hkeysN]; exact hends.2)
  · intro pe hpe
    simp [emptyGraph, alookup]

/-- Counterexample to C1 as stated: the op sequence
upsertNode "A"; renameNode "A" " Z " is built from public operations only,
yet its round trip does not preserve the node set — `rename_node` stores the
untrimmed key " Z ", while `from_json` re-validates through the `Node`
constructor, which trims it to "Z". -/
theorem roundtrip_counterexample :
    akeys (runOps [.upsertNode "A" none none none none none none none,
        .renameNode "A" " Z " none]).nodes = [" Z "]
      ∧ (from_json (to_json (runOps [.upsertNode "A" none none none none none none none,
          .renameNode "A" " Z " none]))).map (fun g => akeys g.nodes) = some ["Z"]
      ∧ (" Z " : String) ≠ "Z" := by
  refine ⟨by decide, by decide, by decide⟩

set_option maxHeartbeats 1000000 in
/-- Claim C1 (corrected): for any graph reachable through a sequence of
public operations whose id arguments are trim-clean (unchanged by `strip()`
and, where they become keys, non-empty), `from_json (to_json g)` succeeds
and yields a graph with the same node key set, the identical edge
dictionary, the identical stored node object, flat label, and derived
influence and community values on every node — the analytics values compared
through the read defaults (absent influence reads as 0, absent community as
null), since the round trip materialises exactly those defaults. -/
theorem roundtrip_after_trimmed_ops (ops : List Op)
    (hops : ∀ op ∈ ops, op.goodb = true) :
    ∃ g1, from_json (to_json (runOps ops)) = some g1
      ∧ akeys g1.nodes = akeys (runOps ops).nodes
      ∧ g1.edges = (runOps ops).edges
      ∧ (∀ k, (alookup g1.nodes k).map (fun a => a.node)
          = (alookup (runOps ops).nodes k).map (fun a => a.node))
      ∧ (∀ k, (alookup g1.nodes k).map (fun a => a.flatLabel)
          = (alookup (runOps ops).nodes k).map (fun a => a.flatLabel))
      ∧ (∀ k, (alookup g1.nodes k).map (fun a => a.influence.getD 0)
          = (alookup (runOps ops).nodes k).map (fun a => a.influence.getD 0))
      ∧ (∀ k, (alookup g1.nodes k).map (fun a => a.community.getD none)
          = (alookup (runOps ops).nodes k).map (fun a => a.community.getD none)) := by
  have hround := roundtrip_good (good_runOps ops hops)
  refine ⟨_, hround, ?_, rfl, ?_, ?_, ?_, ?_⟩
  · exact akeys_mapVal
  · intro k
    dsimp only
    rw [alookup_mapVal]
    cases alookup (runOps ops).nodes k <;> rfl
  · intro k
    dsimp only
    rw [alookup_mapVal]
    cases alookup (runOps ops).nodes k <;> rfl
  · intro k
    dsimp only
    rw [alookup_mapVal]
    cases alookup (runOps ops).nodes k <;> rfl
  · intro k
    dsimp only
    rw [alookup_mapVal]
    cases alookup (runOps ops).nodes k <;> rfl

set_option maxHeartbeats 1000000 in
/-- Witness for C1: the trim-clean OpenAI/Nvidia scenario round-trips to a
graph with the same node keys and edge dictionary. -/
theorem roundtrip_after_trimmed_ops_witness :
    (∃ g1, from_json (to_json (runOps demoOps)) = some g1
        ∧ akeys g1.nodes = akeys (runOps demoOps).nodes
        ∧ g1.edges = (runOps demoOps).edges)
      ∧ akeys (runOps demoOps).nodes = ["OpenAI", "Nvidia"] := by
  obtain ⟨g1, h1, h2, h3, _⟩ := roundtrip_after_trimmed_ops demoOps (by decide)
  exact ⟨⟨g1, h1, h2, h3⟩, by decide⟩

/-- Witness for C8: a concrete payload with a non-numeric impact value
writes the edge A→B with impact 0.5. -/
theorem upsertEdge_invalid_impact_defaults_witness :
    ∃ g1, add_or_update_edge_from_payload emptyGraph
      { source := some "A", target := some "B", relationship_type := some "x",
        impact := some PyVal.nonNumeric, metadata := none } = some g1
      ∧ ∃ e, alookup g1.edges ("A", "B") = some e ∧ e.impact = 1/2 := by
  exact (upsertEdge_invalid_impact_defaults emptyGraph
    { source := some "A", target := some "B", relationship_type := some "x",
      impact := some PyVal.nonNumeric, metadata := none } "A" "B"
    rfl (by decide) (by decide) rfl (by decide) (by decide) (Or.inr rfl)).1

end NodeConn
